import Mathlib

/-!
Verification development for the markdown text-extraction / offset-mapping /
decoration pipeline of the obsidian-grazie-plugin repository.

Strings are modelled as `List Char`.  JavaScript string indices are `Nat`
(JS indices in this code are always non-negative); positions that originate
in external service data (highlight ranges) are modelled as `Int`, matching
the fact that the service payload is untrusted.

Each definition is a direct translation of the corresponding TypeScript
function; regular-expression scans are translated into explicit scanners
with the exact backtracking behaviour of the original pattern on the
character classes involved.
-/

set_option maxRecDepth 200000
set_option maxHeartbeats 2000000

namespace GraziePlugin

/-- JS `\s` whitespace class (the members relevant to this code base:
space, tab, newline, carriage return, vertical tab, form feed, NBSP). -/
def isWs (c : Char) : Bool :=
  c == ' ' || c == '\t' || c == '\n' || c == '\r' ||
  c == '\x0b' || c == '\x0c' || c == ' '

/-- Character at index `i`, if in bounds (JS `s[i]`). -/
def strAt (s : List Char) (i : Nat) : Option Char := s.get? i

/-- `s[i] === c` in JS. -/
def chAt (s : List Char) (i : Nat) (c : Char) : Bool := s.get? i == some c

/-- `pat` occurs in `s` starting at index `i`. -/
def isPrefixAt (pat s : List Char) (i : Nat) : Bool := pat.isPrefixOf (s.drop i)

/-- JS `s.substring(i, j)` for `i ≤ j`. -/
def sliceL (s : List Char) (i j : Nat) : List Char := (s.drop i).take (j - i)

/-- End of the maximal run of characters satisfying `p` starting at `i`:
the first index `≥ i` whose character fails `p` (or the string length). -/
def runEnd (p : Char → Bool) (s : List Char) (i : Nat) : Nat :=
  i + ((s.drop i).takeWhile p).length

/-- First index `j ≥ i` at which `pat` occurs in `s` (JS `indexOf(pat, i)`). -/
def findFromAux (pat s : List Char) : Nat → Nat → Option Nat
  | 0, _ => none
  | fuel + 1, j =>
    if isPrefixAt pat s j then some j
    else if j ≥ s.length then none
    else findFromAux pat s fuel (j + 1)

def findFrom (pat s : List Char) (i : Nat) : Option Nat :=
  findFromAux pat s (s.length + 1) i

/-- `^` of a JS multiline regex: start of string or just after a line
terminator. -/
def isLineStart (s : List Char) (i : Nat) : Bool :=
  i == 0 ||
  (match s.get? (i - 1) with
   | some c => c == '\n' || c == '\r'
   | none => false)

/-- JS `replace(/\s+/g, " ")`: every maximal whitespace run becomes one
space.  The flag records whether the scan is inside a whitespace run whose
replacement space has already been emitted. -/
def collapseWsAux : Bool → List Char → List Char
  | _, [] => []
  | inRun, c :: rest =>
    if isWs c then
      if inRun then collapseWsAux true rest
      else ' ' :: collapseWsAux true rest
    else c :: collapseWsAux false rest

def collapseWs (l : List Char) : List Char := collapseWsAux false l

/-- JS `trim()`. -/
def trimL (l : List Char) : List Char :=
  ((l.dropWhile isWs).reverse.dropWhile isWs).reverse

/-- JS `parts.join(" ")`. -/
def joinSpace : List (List Char) → List Char
  | [] => []
  | [x] => x
  | x :: xs => x ++ ' ' :: joinSpace xs

/-- Named character predicates for the regex scanners (negated character
classes). -/
def notBacktickNl (c : Char) : Bool := !(c == '`' || c == '\n')
def notNlCr (c : Char) : Bool := !(c == '\n' || c == '\r')
def notDollarNl (c : Char) : Bool := !(c == '$' || c == '\n')
def notRBracket (c : Char) : Bool := !(c == ']')
def notRParen (c : Char) : Bool := !(c == ')')
def notGt (c : Char) : Bool := !(c == '>')
def isHash (c : Char) : Bool := c == '#'

/-! ### Exclusions (text-processor.ts) -/

inductive ExclusionType
  | code_block | inline_code | link | image | html_tag | frontmatter | math | header
deriving DecidableEq, Repr

structure TextExclusion where
  start : Nat
  «end» : Nat
  type : ExclusionType
  originalText : List Char
deriving DecidableEq, Repr

/-- One step of a global (`g`-flag) regex scan: at position `i` either a
match, giving the continuation position (the match end) and the produced
exclusion, or no match at `i` (the scan then advances by one). -/
def scanGen {α : Type} (step : Nat → Option (Nat × α)) : Nat → Nat → List α
  | 0, _ => []
  | fuel + 1, i =>
    match step i with
    | some (n, e) => e :: scanGen step fuel n
    | none => scanGen step fuel (i + 1)

def mkExcl (s : List Char) (i j : Nat) (t : ExclusionType) : TextExclusion :=
  ⟨i, j, t, sliceL s i j⟩

/-- Fenced code blocks: ```` ```…``` ```` or `~~~…~~~` (lazy closing). -/
def fencedStep (s : List Char) (i : Nat) : Option (Nat × TextExclusion) :=
  if isPrefixAt "```".toList s i then
    (findFrom "```".toList s (i + 3)).map fun j => (j + 3, mkExcl s i (j + 3) .code_block)
  else if isPrefixAt "~~~".toList s i then
    (findFrom "~~~".toList s (i + 3)).map fun j => (j + 3, mkExcl s i (j + 3) .code_block)
  else none

/-- Indented code: a line starting with four spaces or a tab, to end of line
(`/^([ ]{4}|\t).*$/gm`). -/
def indentedStep (s : List Char) (i : Nat) : Option (Nat × TextExclusion) :=
  if isLineStart s i && (isPrefixAt "    ".toList s i || chAt s i '\t') then
    let e := runEnd notNlCr s i
    some (e, mkExcl s i e .code_block)
  else none

/-- Inline code `` `…` `` / ``` ``…`` ``` (`/`{1,2}[^`\n]*`{1,2}/g`), with the
backtracking of the greedy one-or-two-backtick delimiters made explicit. -/
def inlineCodeStep (s : List Char) (i : Nat) : Option (Nat × TextExclusion) :=
  if chAt s i '`' then
    if chAt s (i + 1) '`' then
      let j := runEnd notBacktickNl s (i + 2)
      if chAt s j '`' then
        let c2 := if chAt s (j + 1) '`' then 2 else 1
        some (j + c2, mkExcl s i (j + c2) .inline_code)
      else
        -- backtrack: open with a single backtick, empty content, close at i+1
        let c2 := if chAt s (i + 2) '`' then 2 else 1
        some (i + 1 + c2, mkExcl s i (i + 1 + c2) .inline_code)
    else
      let j := runEnd notBacktickNl s (i + 1)
      if chAt s j '`' then
        let c2 := if chAt s (j + 1) '`' then 2 else 1
        some (j + c2, mkExcl s i (j + c2) .inline_code)
      else none
  else none

/-- YAML front-matter: the multiline pattern `^---[\s\S]*?^---` accepted only
when it matches at index 0. -/
def findFMCloseAux (s : List Char) : Nat → Nat → Option Nat
  | 0, _ => none
  | fuel + 1, j =>
    if isLineStart s j && isPrefixAt "---".toList s j then some j
    else if j ≥ s.length then none
    else findFMCloseAux s fuel (j + 1)

def findFrontmatter (s : List Char) : List TextExclusion :=
  if isPrefixAt "---".toList s 0 then
    match findFMCloseAux s (s.length + 1) 3 with
    | some j => [mkExcl s 0 (j + 3) .frontmatter]
    | none => []
  else []

/-- Display math `$$…$$` (lazy closing). -/
def mathBlockStep (s : List Char) (i : Nat) : Option (Nat × TextExclusion) :=
  if isPrefixAt "$$".toList s i then
    (findFrom "$$".toList s (i + 2)).map fun j => (j + 2, mkExcl s i (j + 2) .math)
  else none

/-- Inline math `/\$[^$\n]*\$/g`. -/
def inlineMathStep (s : List Char) (i : Nat) : Option (Nat × TextExclusion) :=
  if chAt s i '$' then
    let j := runEnd notDollarNl s (i + 1)
    if chAt s j '$' then some (j + 1, mkExcl s i (j + 1) .math)
    else none
  else none

/-- Images `/!\[([^\]]*)\]\(([^)]*)\)/g`. -/
def imageStep (s : List Char) (i : Nat) : Option (Nat × TextExclusion) :=
  if chAt s i '!' && chAt s (i + 1) '[' then
    let j := runEnd notRBracket s (i + 2)
    if chAt s j ']' && chAt s (j + 1) '(' then
      let k := runEnd notRParen s (j + 2)
      if chAt s k ')' then some (k + 1, mkExcl s i (k + 1) .image)
      else none
    else none
  else none

/-- A link match at `i`: either `[text](url)` (not preceded by `!`) or a
reference link `[text][ref]` (`/(?<!!)\[([^\]]*)\]\(([^)]*)\)|\[([^\]]*)\]\[([^\]]*)\]/g`). -/
def linkMatchAt (s : List Char) (i : Nat) : Option (Nat × TextExclusion) :=
  if chAt s i '[' then
    let j := runEnd notRBracket s (i + 1)
    let alt1 :=
      if !(decide (i > 0) && chAt s (i - 1) '!') && chAt s j ']' && chAt s (j + 1) '(' then
        let k := runEnd notRParen s (j + 2)
        if chAt s k ')' then some (k + 1, mkExcl s i (k + 1) .link)
        else none
      else none
    match alt1 with
    | some r => some r
    | none =>
      if chAt s j ']' && chAt s (j + 1) '[' then
        let k := runEnd notRBracket s (j + 2)
        if chAt s k ']' then some (k + 1, mkExcl s i (k + 1) .link)
        else none
      else none
  else none

/-- `match.index < exclusion.end && matchEnd > exclusion.start` over the
exclusions found so far. -/
def overlapsAny (acc : List TextExclusion) (e : TextExclusion) : Bool :=
  acc.any fun x => decide (e.start < x.«end») && decide (e.«end» > x.start)

/-- The link scan threads the accumulated exclusion list because each match
is pushed only when it does not overlap an already-found exclusion; the scan
itself continues past every match (JS `lastIndex`) whether pushed or not. -/
def findLinksAux (s : List Char) : List TextExclusion → Nat → Nat → List TextExclusion
  | acc, 0, _ => acc
  | acc, fuel + 1, i =>
    match linkMatchAt s i with
    | some (n, e) =>
      findLinksAux s (if overlapsAny acc e then acc else acc ++ [e]) fuel n
    | none => findLinksAux s acc fuel (i + 1)

/-- Autolinks `/<https?:\/\/[^>]+>/g`. -/
def autolinkStep (s : List Char) (i : Nat) : Option (Nat × TextExclusion) :=
  if chAt s i '<' && isPrefixAt "http".toList s (i + 1) then
    let q := if chAt s (i + 5) 's' then i + 6 else i + 5
    if isPrefixAt "://".toList s q then
      let r := runEnd notGt s (q + 3)
      if decide (r > q + 3) && chAt s r '>' then some (r + 1, mkExcl s i (r + 1) .link)
      else none
    else none
  else none

/-- HTML tags `/<[^>]+>/g`. -/
def htmlStep (s : List Char) (i : Nat) : Option (Nat × TextExclusion) :=
  if chAt s i '<' then
    let j := runEnd notGt s (i + 1)
    if decide (j > i + 1) && chAt s j '>' then some (j + 1, mkExcl s i (j + 1) .html_tag)
    else none
  else none

/-- Headers `/^#{1,6}\s+.*$/gm`: for a run of 7+ hashes the greedy quantifier
backtracks onto another `#` and every alternative fails, so there is no match. -/
def headerStep (s : List Char) (i : Nat) : Option (Nat × TextExclusion) :=
  if isLineStart s i then
    let r := runEnd isHash s i - i
    if 1 ≤ r && r ≤ 6 then
      let w := runEnd isWs s (i + r)
      if decide (w > i + r) then
        let e := runEnd notNlCr s w
        some (e, mkExcl s i e .header)
      else none
    else none
  else none

/-- All exclusions, pushed in the source order of `extractTextForGrammarCheck`:
code blocks, inline code, front-matter, math, images, links (with overlap
check) and autolinks, HTML tags, headers. -/
def findAllExclusions (s : List Char) : List TextExclusion :=
  let fuel := s.length + 2
  let beforeLinks :=
    scanGen (fencedStep s) fuel 0 ++ scanGen (indentedStep s) fuel 0 ++
    scanGen (inlineCodeStep s) fuel 0 ++ findFrontmatter s ++
    scanGen (mathBlockStep s) fuel 0 ++ scanGen (inlineMathStep s) fuel 0 ++
    scanGen (imageStep s) fuel 0
  findLinksAux s beforeLinks fuel 0 ++ scanGen (autolinkStep s) fuel 0 ++
    scanGen (htmlStep s) fuel 0 ++ scanGen (headerStep s) fuel 0

/-- `exclusions.sort((a, b) => a.start - b.start)` (stable). -/
def sortByStart (l : List TextExclusion) : List TextExclusion :=
  List.insertionSort (fun a b => a.start ≤ b.start) l

/-- `mergeOverlappingExclusions`: a single left-to-right sweep merging when
`current.end >= next.start`, keeping the first `type` and concatenating
`originalText`. -/
def mergeGo (current : TextExclusion) : List TextExclusion → List TextExclusion
  | [] => [current]
  | next :: rest =>
    if next.start ≤ current.«end» then
      mergeGo ⟨current.start, max current.«end» next.«end», current.type,
               current.originalText ++ next.originalText⟩ rest
    else current :: mergeGo next rest

def mergeOverlappingExclusions : List TextExclusion → List TextExclusion
  | [] => []
  | e :: es => mergeGo e es

/-! ### Segments and extraction -/

structure TextSegment where
  text : List Char
  originalPosition : Nat
  originalLength : Nat
  isExcluded : Bool
deriving DecidableEq, Repr

structure ProcessedText where
  segments : List TextSegment
  extractedText : List Char
  exclusions : List TextExclusion
deriving DecidableEq, Repr

/-- `createSegments`: alternate gap segments and exclusion segments, plus a
trailing gap. -/
def createSegmentsGo (text : List Char) : Nat → List TextExclusion → List TextSegment
  | pos, [] =>
    if pos < text.length then
      [⟨sliceL text pos text.length, pos, text.length - pos, false⟩]
    else []
  | pos, e :: rest =>
    (if pos < e.start then
      [(⟨sliceL text pos e.start, pos, e.start - pos, false⟩ : TextSegment)]
     else []) ++
    ⟨e.originalText, e.start, e.«end» - e.start, true⟩ ::
      createSegmentsGo text e.«end» rest

def createSegments (text : List Char) (exclusions : List TextExclusion) : List TextSegment :=
  createSegmentsGo text 0 exclusions

/-- `MarkdownTextProcessor.extractTextForGrammarCheck`. -/
def extractTextForGrammarCheck (markdown : List Char) : ProcessedText :=
  let mergedExclusions := mergeOverlappingExclusions (sortByStart (findAllExclusions markdown))
  let segments := createSegments markdown mergedExclusions
  let extractedText :=
    trimL (collapseWs (joinSpace ((segments.filter (fun seg => !seg.isExcluded)).map (·.text))))
  ⟨segments, extractedText, mergedExclusions⟩

/-! ### Position mapping (text-processor.ts) -/

/-- The position-map construction of `mapThroughWhitespaceNormalization`:
walk original and normalized text together; matching characters advance both
pointers, a (collapsed) whitespace character in the normalized text records
the current original position and skips the whole original whitespace run.
The fuel argument is always called with more fuel than the walk can consume,
so the function equals the source's while loop. -/
def buildPosMapAux (originalText normalizedText : List Char) : Nat → Nat → Nat → List Nat
  | 0, _, _ => []
  | fuel + 1, o, n =>
    match normalizedText.get? n, originalText.get? o with
    | some nc, some oc =>
      if oc == nc then o :: buildPosMapAux originalText normalizedText fuel (o + 1) (n + 1)
      else if isWs nc then
        o :: buildPosMapAux originalText normalizedText fuel (runEnd isWs originalText o) (n + 1)
      else if isWs oc then
        buildPosMapAux originalText normalizedText fuel (runEnd isWs originalText o) n
      else o :: buildPosMapAux originalText normalizedText fuel (o + 1) (n + 1)
    | _, _ => []

/-- `MarkdownTextProcessor.mapThroughWhitespaceNormalization`. -/
def mapThroughWhitespaceNormalization
    (processedPos : Nat) (originalText normalizedText : List Char) : Nat :=
  if originalText.length == normalizedText.length then processedPos
  else
    let startPos := runEnd isWs originalText 0
    let positionMap :=
      buildPosMapAux originalText normalizedText
        (originalText.length + normalizedText.length + 1) startPos 0
    if h : processedPos < positionMap.length then positionMap.get ⟨processedPos, h⟩
    else if processedPos == normalizedText.length then originalText.length
    else min (positionMap.getLastD 0 + (processedPos - positionMap.length)) originalText.length

def lastSegmentEnd (pt : ProcessedText) : Nat :=
  match pt.segments.getLast? with
  | some seg => seg.originalPosition + seg.originalLength
  | none => 0

/-- The segment walk of the multi-segment case of
`mapProcessedPositionToOriginal`. -/
def segWalk : List TextSegment → Nat → Nat → Option Nat
  | [], _, _ => none
  | seg :: rest, cur, raw =>
    if seg.isExcluded then segWalk rest cur raw
    else if cur + seg.text.length > raw then some (seg.originalPosition + (raw - cur))
    else segWalk rest (cur + seg.text.length) raw

/-- Multi-segment case of `mapProcessedPositionToOriginal`: rebuild the raw
(unnormalized) extracted text, map through whitespace normalization, then
walk the segments. -/
def multiSegMap (processedPosition : Nat) (pt : ProcessedText) : Nat :=
  let rawExtractedText := ((pt.segments.filter (fun seg => !seg.isExcluded)).map (·.text)).flatten
  let normalizedExtractedText := trimL (collapseWs rawExtractedText)
  if processedPosition ≥ normalizedExtractedText.length then lastSegmentEnd pt
  else
    let rawPosition :=
      mapThroughWhitespaceNormalization processedPosition rawExtractedText normalizedExtractedText
    (segWalk pt.segments 0 rawPosition).getD (lastSegmentEnd pt)

/-- `MarkdownTextProcessor.mapProcessedPositionToOriginal`. -/
def mapProcessedPositionToOriginal (processedPosition : Nat) (pt : ProcessedText) : Nat :=
  match pt.segments with
  | [seg] =>
    if seg.isExcluded = false then
      if seg.text.length ≠ pt.extractedText.length then
        mapThroughWhitespaceNormalization processedPosition seg.text pt.extractedText
      else min processedPosition (seg.text.length - 1)
    else multiSegMap processedPosition pt
  | _ => multiSegMap processedPosition pt

/-! ### cleanMarkdownFormatting (text-processor.ts) -/

/-- Character at `i` is whitespace. -/
def wsAt (s : List Char) (i : Nat) : Bool :=
  match s.get? i with
  | some c => isWs c
  | none => false

/-- A global regex replace: `step i` yields the continuation position
(match end) and the replacement text when the pattern matches at `i`. -/
def replaceScan (s : List Char) (step : Nat → Option (Nat × List Char)) :
    Nat → Nat → List Char
  | 0, _ => []
  | fuel + 1, i =>
    match s.get? i with
    | none => []
    | some c =>
      match step i with
      | some (n, repl) => repl ++ replaceScan s step fuel n
      | none => c :: replaceScan s step fuel (i + 1)

def applyPass (step : List Char → Nat → Option (Nat × List Char)) (s : List Char) : List Char :=
  replaceScan s (step s) (s.length + 1) 0

/-- `replace(/^#{1,6}\s+/gm, "")`. -/
def hdrMarkStep (s : List Char) (i : Nat) : Option (Nat × List Char) :=
  if isLineStart s i then
    let r := runEnd isHash s i - i
    if 1 ≤ r && r ≤ 6 then
      let w := runEnd isWs s (i + r)
      if decide (w > i + r) then some (w, []) else none
    else none
  else none

/-- `replace(/X{1,3}([^X]+)X{1,3}/g, "$1")` for `X` the emphasis marker
(`*` or `_`); a run of four or more markers admits no match at its head. -/
def emphStep (mark : Char) (s : List Char) (i : Nat) : Option (Nat × List Char) :=
  let a := runEnd (fun c => c == mark) s i - i
  if 1 ≤ a && a ≤ 3 then
    let c := runEnd (fun c => !(c == mark)) s (i + a)
    if decide (c > i + a) then
      let b := runEnd (fun c => c == mark) s c - c
      if b ≥ 1 then some (c + min b 3, sliceL s (i + a) c) else none
    else none
  else none

/-- `replace(/~~([^~]+)~~/g, "$1")`. -/
def strikeStep (s : List Char) (i : Nat) : Option (Nat × List Char) :=
  if isPrefixAt "~~".toList s i then
    let c := runEnd (fun c => !(c == '~')) s (i + 2)
    if decide (c > i + 2) && chAt s c '~' && chAt s (c + 1) '~' then
      some (c + 2, sliceL s (i + 2) c)
    else none
  else none

/-- `replace(/^>\s*/gm, "")`. -/
def blockquoteStep (s : List Char) (i : Nat) : Option (Nat × List Char) :=
  if isLineStart s i && chAt s i '>' then some (runEnd isWs s (i + 1), [])
  else none

def isListMarker (s : List Char) (i : Nat) : Bool :=
  chAt s i '-' || chAt s i '*' || chAt s i '+'

/-- `replace(/^\s*[-*+]\s+/gm, "")`. -/
def listLineStep (s : List Char) (i : Nat) : Option (Nat × List Char) :=
  if isLineStart s i then
    let w1 := runEnd isWs s i
    if isListMarker s w1 then
      let w2 := runEnd isWs s (w1 + 1)
      if decide (w2 > w1 + 1) then some (w2, []) else none
    else none
  else none

/-- `replace(/^\s*\d+\.\s+/gm, "")`. -/
def numListLineStep (s : List Char) (i : Nat) : Option (Nat × List Char) :=
  if isLineStart s i then
    let w1 := runEnd isWs s i
    let d := runEnd Char.isDigit s w1 - w1
    if decide (d ≥ 1) && chAt s (w1 + d) '.' then
      let w2 := runEnd isWs s (w1 + d + 1)
      if decide (w2 > w1 + d + 1) then some (w2, []) else none
    else none
  else none

/-- `replace(/\s+[-*+]\s+/g, " ")`. -/
def spaceMarkerStep (s : List Char) (i : Nat) : Option (Nat × List Char) :=
  if wsAt s i then
    let w1 := runEnd isWs s i
    if isListMarker s w1 then
      let w2 := runEnd isWs s (w1 + 1)
      if decide (w2 > w1 + 1) then some (w2, [' ']) else none
    else none
  else none

/-- `replace(/\s+\d+\.\s+/g, " ")`. -/
def spaceNumStep (s : List Char) (i : Nat) : Option (Nat × List Char) :=
  if wsAt s i then
    let w1 := runEnd isWs s i
    let d := runEnd Char.isDigit s w1 - w1
    if decide (d ≥ 1) && chAt s (w1 + d) '.' then
      let w2 := runEnd isWs s (w1 + d + 1)
      if decide (w2 > w1 + d + 1) then some (w2, [' ']) else none
    else none
  else none

/-- `replace(/^---+$/gm, "")`. -/
def hrStep (s : List Char) (i : Nat) : Option (Nat × List Char) :=
  if isLineStart s i then
    let r := runEnd (fun c => c == '-') s i - i
    if decide (r ≥ 3) &&
       (match s.get? (i + r) with
        | some c => c == '\n' || c == '\r'
        | none => true) then
      some (i + r, [])
    else none
  else none

/-- `replace(/\n\s*\n/g, "\n")`: the greedy `\s*` backtracks to the last
newline inside the whitespace run following the opening newline. -/
def blankLineStep (s : List Char) (i : Nat) : Option (Nat × List Char) :=
  if chAt s i '\n' then
    let w := runEnd isWs s (i + 1)
    match ((List.range' (i + 1) (w - (i + 1))).filter (fun p => chAt s p '\n')).getLast? with
    | some p => some (p + 1, ['\n'])
    | none => none
  else none

/-- `MarkdownTextProcessor.cleanMarkdownFormatting` (the current version,
including removal of list markers that appear after spaces). -/
def cleanMarkdownFormatting (text : List Char) : List Char :=
  trimL (applyPass blankLineStep
    (applyPass hrStep
      (applyPass spaceNumStep
        (applyPass spaceMarkerStep
          (applyPass numListLineStep
            (applyPass listLineStep
              (applyPass blockquoteStep
                (applyPass strikeStep
                  (applyPass (emphStep '_')
                    (applyPass (emphStep '*')
                      (applyPass hdrMarkStep text)))))))))))

/-! ### splitIntoSentences (grammar-checker.ts) -/

/-- `\p{Lu}` restricted to the alphabets this code handles. -/
def isUpperL (c : Char) : Bool := c.isUpper

def isSentencePunct (c : Char) : Bool := c == '.' || c == '!' || c == '?'

def endsWithSentencePunct (l : List Char) : Bool :=
  match l.getLast? with
  | some c => isSentencePunct c
  | none => false

def continuationWords : List (List Char) :=
  ["and", "or", "the", "a", "an", "in", "on", "at", "to", "for", "of", "with"].map
    String.toList

/-- `/^(and|or|the|a|an|in|on|at|to|for|of|with)\s/i` applied to the next few
characters. -/
def isLikelyContinuation (l : List Char) : Bool :=
  continuationWords.any fun w =>
    ((l.take w.length).map Char.toLower == w) &&
    (match (l.drop w.length).head? with
     | some c => isWs c
     | none => false)

/-- The character scan of `splitIntoSentences`: sentence-ending punctuation
followed by whitespace and a capital closes a sentence; a bare space closes
one when the conservative collapsed-newline heuristic fires. -/
def splitLoopAux (s : List Char) : Nat → Nat → List Char → List (List Char)
  | 0, _, cur => if trimL cur ≠ [] then [trimL cur] else []
  | fuel + 1, i, cur =>
    match s.get? i with
    | none => if trimL cur ≠ [] then [trimL cur] else []
    | some c =>
      if isSentencePunct c then
        let cur' := cur ++ [c]
        let nextChar := s.get? (i + 1)
        if (nextChar == some ' ' || nextChar == some '\n') &&
           (match s.get? (i + 2) with
            | some c2 => isUpperL c2
            | none => false) then
          trimL cur' :: splitLoopAux s fuel (i + 2) []
        else if i == s.length - 1 then
          trimL cur' :: splitLoopAux s fuel (i + 1) []
        else splitLoopAux s fuel (i + 1) cur'
      else if c == ' ' then
        let trimmed := trimL cur
        let nextIsCapital :=
          match s.get? (i + 1) with
          | some nc => isUpperL nc
          | none => false
        if (!trimmed.isEmpty) && trimmed.any Char.isAlpha &&
           !endsWithSentencePunct trimmed && decide (trimmed.length > 20) &&
           nextIsCapital && !isLikelyContinuation (sliceL s (i + 1) (i + 10)) then
          trimmed :: splitLoopAux s fuel (i + 1) []
        else splitLoopAux s fuel (i + 1) (cur ++ [' '])
      else splitLoopAux s fuel (i + 1) (cur ++ [c])

/-- Residual markdown stripping applied to each raw sentence. -/
def stripResidualMarkdown (sentence : List Char) : List Char :=
  trimL (applyPass strikeStep (applyPass (emphStep '_') (applyPass (emphStep '*') sentence)))

/-- `GrammarCheckerService.splitIntoSentences` (the version with the
collapsed-newline bare-space heuristic). -/
def splitIntoSentences (text : List Char) : List (List Char) :=
  let cleanedText := cleanMarkdownFormatting (trimL text)
  if cleanedText.isEmpty then []
  else
    let sentences := splitLoopAux cleanedText (cleanedText.length + 1) 0 []
    (sentences.map fun sentence =>
      let s1 := stripResidualMarkdown sentence
      if endsWithSentencePunct s1 then s1 else s1 ++ ['.']).filter
      fun s2 => decide (s2.length > 3) && s2.any Char.isAlpha

/-! ### LRUCache (lru-cache.ts)

A JS `Map` is insertion-ordered; the model keeps the entry list with the
oldest entry first (`map.keys().next()` = head) and the most recently used
entry last.  Keys in the list are unique, as in a `Map`. -/

structure LRUCache (K V : Type) where
  limit : Nat
  entries : List (K × V)
deriving DecidableEq, Repr

variable {K V : Type} [DecidableEq K]

def assocFind (k : K) : List (K × V) → Option V
  | [] => none
  | (k', v) :: rest => if k' = k then some v else assocFind k rest

def eraseKey (k : K) : List (K × V) → List (K × V)
  | [] => []
  | (k', v) :: rest => if k' = k then rest else (k', v) :: eraseKey k rest

/-- `LRUCache.get`: on a hit the entry is deleted and re-inserted, which in a
JS `Map` moves it to the most-recently-used end. -/
def lruGet (c : LRUCache K V) (k : K) : Option V × LRUCache K V :=
  match assocFind k c.entries with
  | none => (none, c)
  | some v => (some v, ⟨c.limit, eraseKey k c.entries ++ [(k, v)]⟩)

/-- `LRUCache.set`: an existing key is deleted first; otherwise, at capacity,
the oldest entry (the head of the insertion order) is deleted; then the new
entry is appended. -/
def lruSet (c : LRUCache K V) (k : K) (v : V) : LRUCache K V :=
  if (assocFind k c.entries).isSome then
    ⟨c.limit, eraseKey k c.entries ++ [(k, v)]⟩
  else if c.entries.length ≥ c.limit then
    match c.entries with
    | [] => ⟨c.limit, [(k, v)]⟩
    | _ :: rest => ⟨c.limit, rest ++ [(k, v)]⟩
  else ⟨c.limit, c.entries ++ [(k, v)]⟩

def lruSize (c : LRUCache K V) : Nat := c.entries.length

/-! ### Grammar checking data model (jetbrains-ai / grammar-checker.ts) -/

inductive ConfidenceLevel
  | HIGH | LOW
deriving DecidableEq, Repr

inductive CorrectionServiceType
  | MLEC | SPELL | RULE
deriving DecidableEq, Repr

/-- A half-open highlight range relative to a sentence, as delivered by the
external service (hence `Int`: the payload is untrusted). -/
structure HighlightRange where
  start : Int
  endExclusive : Int
deriving DecidableEq, Repr

/-- The parts of a service `Problem` that this pipeline reads:
`highlighting.always` and `info.confidence`, plus the message payload. -/
structure Problem where
  message : List Char
  confidence : ConfidenceLevel
  always : List HighlightRange
deriving DecidableEq, Repr

structure ProblemWithSentence where
  problem : Problem
  sentenceIndex : Nat
deriving DecidableEq, Repr

structure SentenceWithProblems where
  sentence : List Char
  problems : List Problem
deriving DecidableEq, Repr

structure GrammarCheckResult where
  problems : List ProblemWithSentence
  processedSentences : List (List Char)
  totalProblems : Nat
  hasErrors : Bool
deriving DecidableEq, Repr

def emptyCheckResult : GrammarCheckResult := ⟨[], [], 0, false⟩

/-- The settings fields `checkText` reads. -/
structure PluginSettings where
  language : List Char
  minConfidenceLevel : ℚ
  mlec : Bool
  spell : Bool
  rule : Bool

structure CheckRequest where
  sentences : List (List Char)
  language : List Char
  services : List CorrectionServiceType

def mapLanguageCode (language : List Char) : List Char :=
  if language = "en".toList then "ENGLISH".toList
  else if language = "de".toList then "GERMAN".toList
  else if language = "ru".toList then "RUSSIAN".toList
  else if language = "uk".toList then "UKRAINIAN".toList
  else "ENGLISH".toList

/-- `GrammarCheckerService.processGrammarResponse`. -/
def processGrammarResponse (minConfidenceLevel : ℚ) (response : List SentenceWithProblems) :
    GrammarCheckResult :=
  let allProblems :=
    (response.enum).flatMap fun p => p.2.problems.map fun pr => (⟨pr, p.1⟩ : ProblemWithSentence)
  let filteredProblems := allProblems.filter fun pws =>
    (if pws.problem.confidence = .HIGH then (1 : ℚ) else 1 / 2) ≥ minConfidenceLevel
  ⟨filteredProblems, response.map (·.sentence), filteredProblems.length,
   decide (filteredProblems.length > 0)⟩

def sentenceCacheType := LRUCache (List Char) SentenceWithProblems

/-- State of the per-sentence cache lookup loop of `checkText`:
the threaded cache, the corrections array (`undefined` = `none`), the
sentences still to check and their indices. -/
def cacheLookupLoop (cache : LRUCache (List Char) SentenceWithProblems)
    (sentences : List (List Char)) :
    LRUCache (List Char) SentenceWithProblems × List (Option SentenceWithProblems) ×
      List (List Char) × List Nat :=
  (sentences.enum).foldl
    (fun st p =>
      let (c, arr, toCheck, indices) := st
      match lruGet c p.2 with
      | (some v, c') => (c', arr ++ [some v], toCheck, indices)
      | (none, c') => (c', arr ++ [none], toCheck ++ [p.2], indices ++ [p.1]))
    (cache, [], [], [])

def msgTooManySentences : List Char :=
  "Document too large for grammar checking (> 100 sentences)".toList

def msgTooManyCharacters : List Char :=
  "Document too large for grammar checking (> 50,000 characters)".toList

/-- The tail of `checkText` past the size checks: service selection, the
per-sentence cache lookup, the service call for the cache misses, the cache
update for the returned corrections, and the response processing.  Returns
result, cache, and whether the external service was called. -/
def checkTextTail (client : CheckRequest → List SentenceWithProblems)
    (settings : PluginSettings) (cache : LRUCache (List Char) SentenceWithProblems)
    (sentences : List (List Char)) :
    GrammarCheckResult × LRUCache (List Char) SentenceWithProblems × Bool :=
  let enabledServices : List CorrectionServiceType :=
    (if settings.mlec then [.MLEC] else []) ++
    (if settings.spell then [.SPELL] else []) ++
    (if settings.rule then [.RULE] else [])
  let services := if enabledServices = [] then [CorrectionServiceType.SPELL] else enabledServices
  let (cache1, correctionsArray, sentencesToCheck, indicesToCheck) :=
    cacheLookupLoop cache sentences
  if sentencesToCheck ≠ [] then
    let apiCorrections :=
      client ⟨sentencesToCheck, mapLanguageCode settings.language, services⟩
    let updates := indicesToCheck.zip apiCorrections
    let correctionsArray2 :=
      updates.foldl (fun arr u => arr.set u.1 (some u.2)) correctionsArray
    let cache2 :=
      updates.foldl (fun c u => lruSet c ((sentences.get? u.1).getD []) u.2) cache1
    (processGrammarResponse settings.minConfidenceLevel (correctionsArray2.filterMap id),
     cache2, true)
  else
    (processGrammarResponse settings.minConfidenceLevel (correctionsArray.filterMap id),
     cache1, false)

/-- `GrammarCheckerService.checkText` on an initialized checker.  The
external client is a parameter (the service response already decoded to the
corrections list); the returned triple is the outcome, the sentence cache
after the call, and whether the external service was called.  Language
auto-detection only chooses the request's language field and cannot affect
control flow, so it is folded into the `language` passed to the client. -/
def checkText (client : CheckRequest → List SentenceWithProblems)
    (settings : PluginSettings) (cache : LRUCache (List Char) SentenceWithProblems)
    (text : List Char) :
    Except (List Char) GrammarCheckResult × LRUCache (List Char) SentenceWithProblems × Bool :=
  if trimL text = [] then (.ok emptyCheckResult, cache, false)
  else
    let processedText := extractTextForGrammarCheck text
    if trimL processedText.extractedText = [] then (.ok emptyCheckResult, cache, false)
    else
      let sentences := splitIntoSentences processedText.extractedText
      if sentences.length > 100 then (.error msgTooManySentences, cache, false)
      else if (joinSpace sentences).length > 50000 then
        (.error msgTooManyCharacters, cache, false)
      else
        let tail := checkTextTail client settings cache sentences
        (.ok tail.1, tail.2.1, tail.2.2)

/-! ### Decorations (editor/decorations.ts) -/

/-- `GrammarProblemWithPosition`: `from`/`to` are absolute original-document
offsets.  They are `Int` because they are produced by arithmetic on
service-supplied ranges and are validated, not trusted. -/
structure GrammarProblemWithPosition where
  problem : Problem
  «from» : Int
  «to» : Int
  sentenceIndex : Int
  sentenceOffset : Int
deriving DecidableEq, Repr

/-- Modelled from the spec: the host editor's position mapping across an
edit, for a single change replacing `[fromA, toA)` with `insertedLen`
characters (spec section 9: "model edits as an explicit
`(insertedAt, removedLength, insertedLength)` record and implement the same
position-transform function directly"). -/
structure DocChange where
  fromA : Nat
  toA : Nat
  insertedLen : Nat
deriving DecidableEq, Repr

def mapPosThroughChange (ch : DocChange) (pos : Int) : Int :=
  if pos ≤ (ch.fromA : Int) then pos
  else if pos ≥ (ch.toA : Int) then pos + (ch.insertedLen : Int) - ((ch.toA : Int) - (ch.fromA : Int))
  else (ch.fromA : Int)

/-- Modelled from the spec: an editor transaction as seen by the decoration
state field — the `setGrammarProblems` effects it carries (applied in order,
later ones overwrite) and at most one document change. -/
structure DecorationTransaction where
  effects : List (List GrammarProblemWithPosition)
  change : Option DocChange
  oldDocLength : Nat

def newDocLength (tr : DecorationTransaction) : Nat :=
  match tr.change with
  | none => tr.oldDocLength
  | some ch => tr.oldDocLength - (ch.toA - ch.fromA) + ch.insertedLen

/-- `grammarDecorationsField.update` restricted to the tracked problem list
(the decoration set is recomputed from it). -/
def decorationsFieldUpdate (value : List GrammarProblemWithPosition)
    (tr : DecorationTransaction) : List GrammarProblemWithPosition :=
  let newProblems := tr.effects.foldl (fun _ eff => eff) value
  match tr.change with
  | some ch =>
    if newProblems.length > 0 then
      (newProblems.map fun p =>
        { p with «from» := mapPosThroughChange ch p.«from»,
                 «to» := mapPosThroughChange ch p.«to» }).filter
        fun p => decide (p.«from» ≥ 0) && decide (p.«to» > p.«from») &&
          decide (p.«to» ≤ (newDocLength tr : Int))
    else newProblems
  | none => newProblems

/-! ### mapProblemsToPositions (editor/decorations.ts) -/

/-- `mapCleanedPositionToOriginal`: clamp, then add back the lengths of the
list markers that `cleanMarkdownFormatting` removed before the position. -/
def beginningListMatch (s : List Char) : Option Nat :=
  let w1 := runEnd isWs s 0
  if isListMarker s w1 then
    let w2 := runEnd isWs s (w1 + 1)
    if decide (w2 > w1 + 1) then some w2 else none
  else
    let d := runEnd Char.isDigit s w1 - w1
    if decide (d ≥ 1) && chAt s (w1 + d) '.' then
      let w2 := runEnd isWs s (w1 + d + 1)
      if decide (w2 > w1 + d + 1) then some w2 else none
    else none

/-- One step of the `/\s+([-*+]|\d+\.)\s+/g` scan, yielding match start and
length. -/
def spaceListStep (s : List Char) (i : Nat) : Option (Nat × (Nat × Nat)) :=
  if wsAt s i then
    let w1 := runEnd isWs s i
    if isListMarker s w1 then
      let w2 := runEnd isWs s (w1 + 1)
      if decide (w2 > w1 + 1) then some (w2, (i, w2 - i)) else none
    else
      let d := runEnd Char.isDigit s w1 - w1
      if decide (d ≥ 1) && chAt s (w1 + d) '.' then
        let w2 := runEnd isWs s (w1 + d + 1)
        if decide (w2 > w1 + d + 1) then some (w2, (i, w2 - i)) else none
      else none
  else none

def spaceMarkerMatches (s : List Char) : List (Nat × Nat) :=
  scanGen (spaceListStep s) (s.length + 2) 0

def mapCleanedPositionToOriginal (cleanedPos : Int) (originalText : List Char)
    (_cleanedText : List Char) : Nat :=
  let clamped := (max 0 (min cleanedPos (originalText.length : Int))).toNat
  let removed0 := (beginningListMatch originalText).getD 0
  let removedChars := (spaceMarkerMatches originalText).foldl
    (fun acc m => if m.1 ≤ clamped + acc then acc + (m.2 - 1) else acc) removed0
  min (clamped + removedChars) originalText.length

/-- Locate the sentence owning an offset into `sentences.join(" ")`. -/
def findSentenceIdx (concatStart : Int) : List (List Char) → Nat → Int → Option (Nat × Int)
  | [], _, _ => none
  | sentence :: rest, i, currentOffset =>
    if concatStart ≥ currentOffset ∧ concatStart < currentOffset + sentence.length then
      some (i, concatStart - currentOffset)
    else findSentenceIdx concatStart rest (i + 1) (currentOffset + sentence.length + 1)

/-- Find `sentences[targetIdx]` in the cleaned extracted text by successive
`indexOf` searches; an intermediate sentence that is not found leaves the
search position unchanged. -/
def findCleanedSentenceStart (cleaned : List Char) :
    List (List Char) → Nat → Nat → Option Nat
  | [], _, _ => none
  | sentence :: rest, n, searchStart =>
    match findFrom sentence cleaned searchStart with
    | some found =>
      if n = 0 then some found
      else findCleanedSentenceStart cleaned rest (n - 1) (found + sentence.length)
    | none =>
      if n = 0 then none
      else findCleanedSentenceStart cleaned rest (n - 1) searchStart

/-- The acceptance guard of `mapProblemsToPositions`:
`originalStart !== -1 && originalEnd !== -1 && originalStart < originalEnd &&
originalStart >= 0 && originalEnd >= 0`. -/
def acceptMapped (originalStart originalEnd : Int) : Prop :=
  originalStart ≠ -1 ∧ originalEnd ≠ -1 ∧ originalStart < originalEnd ∧
  originalStart ≥ 0 ∧ originalEnd ≥ 0

instance (a b : Int) : Decidable (acceptMapped a b) := by
  unfold acceptMapped; infer_instance

/-- `mapProblemsToPositions`: map each highlight range of each problem from
concatenated-sentence coordinates through the cleaned extracted text and the
whitespace normalization back to original-document offsets; a range is kept
only when the mapped pair is valid. -/
def mapProblemsToPositions (problems : List Problem) (sentences : List (List Char))
    (processedTextResult : ProcessedText) : List GrammarProblemWithPosition :=
  let cleanedExtractedText := cleanMarkdownFormatting processedTextResult.extractedText
  problems.flatMap fun problem =>
    problem.always.filterMap fun range =>
      let concatenatedStart := range.start
      let concatenatedEnd := range.endExclusive
      match findSentenceIdx concatenatedStart sentences 0 0 with
      | none => none
      | some (sentenceIndex, sentenceOffset) =>
        match findCleanedSentenceStart cleanedExtractedText sentences sentenceIndex 0 with
        | none => none
        | some cleanedSentenceStart =>
          let cleanedStart : Int := (cleanedSentenceStart : Int) + sentenceOffset
          let cleanedEnd : Int := cleanedStart + (concatenatedEnd - concatenatedStart)
          let extractedStart :=
            mapCleanedPositionToOriginal cleanedStart processedTextResult.extractedText
              cleanedExtractedText
          let extractedEnd :=
            mapCleanedPositionToOriginal cleanedEnd processedTextResult.extractedText
              cleanedExtractedText
          let originalStart : Int :=
            (mapProcessedPositionToOriginal extractedStart processedTextResult : Int)
          let originalEnd : Int :=
            (mapProcessedPositionToOriginal extractedEnd processedTextResult : Int)
          if acceptMapped originalStart originalEnd then
            some ⟨problem, originalStart, originalEnd, (sentenceIndex : Int), sentenceOffset⟩
          else none

/-! ### applyPartialGrammarResults (editor-decorator.ts) -/

/-- `EditorDecoratorService.applyPartialGrammarResults` restricted to the
problem list it dispatches: keep the tracked problems entirely outside the
re-checked range, and (when the result has errors) append the newly mapped
problems shifted by `offset` that fit the current document. -/
def applyPartialGrammarResults (existing : List GrammarProblemWithPosition)
    (offset : Int) (fragment : List Char) (result : GrammarCheckResult)
    (docLength : Nat) : List GrammarProblemWithPosition :=
  let rangeEnd : Int := offset + fragment.length
  let remaining := existing.filter fun p =>
    decide (p.«to» ≤ offset) || decide (p.«from» ≥ rangeEnd)
  if result.hasErrors then
    let processed := extractTextForGrammarCheck fragment
    let problemsWithPositions :=
      mapProblemsToPositions (result.problems.map (·.problem)) result.processedSentences
        processed
    let adjustedProblems :=
      (problemsWithPositions.map fun p =>
        { p with «from» := p.«from» + offset, «to» := p.«to» + offset }).filter
        fun p => decide (p.«from» ≥ 0) && decide (p.«to» ≤ (docLength : Int)) &&
          decide (p.«from» < p.«to»)
    remaining ++ adjustedProblems
  else remaining

/-! ## Shared example data for concrete evaluations -/

/-- A service problem flagging the first five characters of its sentence. -/
def exampleProblem : Problem := ⟨"Possible spelling mistake".toList, .HIGH, [⟨0, 5⟩]⟩

def exampleSentence : List Char := "Hello world.".toList

def exampleClient : CheckRequest → List SentenceWithProblems :=
  fun r => r.sentences.map fun s => ⟨s, []⟩

def exampleSettings : PluginSettings := ⟨"en".toList, 0, false, true, false⟩

def emptySentenceCache : LRUCache (List Char) SentenceWithProblems := ⟨200, []⟩

/-! ## C2 — whitespace collapsing inverse -/

/-- C2: for the document `"Hello  my firend?"` (two spaces after `Hello`),
the extracted text is `"Hello my firend?"`; the extracted text at offsets
`[9, 15)` is `"firend"`, and `mapProcessedPositionToOriginal` maps offset 9
to 10, the offset of `"firend"` in the original document (not 9). -/
theorem hello_firend_mapping :
    (extractTextForGrammarCheck "Hello  my firend?".toList).extractedText
      = "Hello my firend?".toList ∧
    sliceL (extractTextForGrammarCheck "Hello  my firend?".toList).extractedText 9 15
      = "firend".toList ∧
    mapProcessedPositionToOriginal 9 (extractTextForGrammarCheck "Hello  my firend?".toList)
      = 10 ∧
    sliceL "Hello  my firend?".toList 10 16 = "firend".toList := by
  decide

/-! ## C7 — sentence reconstruction across collapsed paragraph breaks -/

/-- C7: splitting the extracted text of
`"First para without punctuation\n\nSecond para also lacking\n\nThird with punctuation."`
yields exactly three sentences, each ending in `'.'`: the bare-space
heuristic closes a sentence exactly when it lacks terminal punctuation, is
longer than 20 characters, the next character is uppercase, and no lowercase
continuation word follows. -/
theorem split_three_paragraph_sentences :
    splitIntoSentences (extractTextForGrammarCheck
        "First para without punctuation\n\nSecond para also lacking\n\nThird with punctuation.".toList).extractedText
      = ["First para without punctuation.".toList, "Second para also lacking.".toList,
         "Third with punctuation.".toList] ∧
    (splitIntoSentences (extractTextForGrammarCheck
        "First para without punctuation\n\nSecond para also lacking\n\nThird with punctuation.".toList).extractedText).all
      (fun s => s.getLast? == some '.') := by
  decide

/-! ## C10 — blank input short-circuits the check -/

/-- C10: for input whose trimmed form is empty, and likewise when the
extracted text is empty after trimming, `checkText` returns the empty result
(no problems, no sentences, zero total, no errors) without calling the
service and without touching the sentence cache. -/
theorem checkText_blank_input (client : CheckRequest → List SentenceWithProblems)
    (settings : PluginSettings) (cache : LRUCache (List Char) SentenceWithProblems)
    (text : List Char) :
    (trimL text = [] →
      checkText client settings cache text
        = (.ok ⟨[], [], 0, false⟩, cache, false)) ∧
    (trimL (extractTextForGrammarCheck text).extractedText = [] →
      checkText client settings cache text
        = (.ok ⟨[], [], 0, false⟩, cache, false)) := by
  constructor
  · intro h
    simp [checkText, h, emptyCheckResult]
  · intro h
    by_cases h1 : trimL text = []
    · simp [checkText, h1, emptyCheckResult]
    · simp [checkText, h1, h, emptyCheckResult]

theorem checkText_blank_input_witness :
    checkText exampleClient exampleSettings emptySentenceCache "   ".toList
      = (.ok ⟨[], [], 0, false⟩, emptySentenceCache, false) ∧
    checkText exampleClient exampleSettings emptySentenceCache "`x`".toList
      = (.ok ⟨[], [], 0, false⟩, emptySentenceCache, false) :=
  ⟨(checkText_blank_input exampleClient exampleSettings emptySentenceCache _).1 (by decide),
   (checkText_blank_input exampleClient exampleSettings emptySentenceCache _).2 (by decide)⟩

/-! ## C4 — decoration range validity across transactions -/

/-- C4 (amended): after every transaction that changes the document, every
tracked problem satisfies `0 ≤ from < to ≤ newDocLength` — ranges are mapped
through the edit and invalid ones are dropped, never clamped; in particular
`[12,17)` shifts to `[17,22)` when 5 characters are inserted before offset
12 of a 23-character document.  (A transaction carrying only a
`setGrammarProblems` effect stores its payload unvalidated; see the
counterexample.) -/
theorem decorations_update_bounds :
    (∀ (value : List GrammarProblemWithPosition) (tr : DecorationTransaction),
        tr.change.isSome = true →
        ∀ p ∈ decorationsFieldUpdate value tr,
          0 ≤ p.«from» ∧ p.«from» < p.«to» ∧ p.«to» ≤ (newDocLength tr : Int)) ∧
    (∀ pr : Problem,
        decorationsFieldUpdate [⟨pr, 12, 17, 0, 0⟩]
            ⟨[], some ⟨5, 5, 5⟩, 23⟩
          = [⟨pr, 17, 22, 0, 0⟩] ∧
        newDocLength ⟨[], some ⟨5, 5, 5⟩, 23⟩ = 28) := by
  constructor
  · intro value tr hs p hp
    obtain ⟨effects, change, oldLen⟩ := tr
    cases change with
    | none => simp at hs
    | some ch =>
      simp only [decorationsFieldUpdate] at hp
      split at hp
      · rw [List.mem_filter] at hp
        have hc := hp.2
        simp only [Bool.and_eq_true, decide_eq_true_eq] at hc
        exact ⟨hc.1.1, hc.1.2, hc.2⟩
      · next hlen =>
        have h0 : (effects.foldl (fun _ eff => eff) value).length = 0 := by omega
        rw [List.length_eq_zero.mp h0] at hp
        simp at hp
  · intro pr
    exact ⟨rfl, rfl⟩

theorem decorations_update_bounds_witness :
    0 ≤ (17 : Int) ∧ (17 : Int) < 22 ∧
      (17 : Int) ≤ (newDocLength ⟨[], some ⟨5, 5, 5⟩, 23⟩ : Int) ∧
    decorationsFieldUpdate [⟨exampleProblem, 12, 17, 0, 0⟩] ⟨[], some ⟨5, 5, 5⟩, 23⟩
      = [⟨exampleProblem, 17, 22, 0, 0⟩] := by
  have h := decorations_update_bounds
  have h1 := h.1 [⟨exampleProblem, 12, 17, 0, 0⟩] ⟨[], some ⟨5, 5, 5⟩, 23⟩ (by decide)
    ⟨exampleProblem, 17, 22, 0, 0⟩ (by decide)
  have h2 := (h.2 exampleProblem).1
  exact ⟨h1.1, h1.2.1, le_of_lt (lt_of_lt_of_le h1.2.1 h1.2.2), h2⟩

/-- C4 counterexample: a transaction that carries only a
`setGrammarProblems` effect (no document change) stores its payload without
any validation, so after this transaction the tracked state contains a
problem with `to < from`, violating the claimed invariant. -/
theorem decorations_update_counterexample :
    decorationsFieldUpdate [] ⟨[[⟨⟨[], .HIGH, []⟩, 5, 3, 0, 0⟩]], none, 10⟩
      = [⟨⟨[], .HIGH, []⟩, 5, 3, 0, 0⟩] ∧
    ¬((5 : Int) < 3) := by
  exact ⟨rfl, by decide⟩

/-! ## C8 — LRU cache behaviour -/

inductive LruOp (K V : Type)
  | get (k : K)
  | set (k : K) (v : V)

def lruStep [DecidableEq K] (c : LRUCache K V) : LruOp K V → LRUCache K V
  | .get k => (lruGet c k).2
  | .set k v => lruSet c k v

def lruRun [DecidableEq K] (c : LRUCache K V) (ops : List (LruOp K V)) : LRUCache K V :=
  ops.foldl lruStep c

theorem assocFind_erase_length (k : K) (l : List (K × V)) (v : V)
    (h : assocFind k l = some v) : (eraseKey k l).length + 1 = l.length := by
  induction l with
  | nil => simp [assocFind] at h
  | cons p rest ih =>
    obtain ⟨k', v'⟩ := p
    by_cases hk : k' = k
    · simp [eraseKey, hk]
    · simp only [assocFind, if_neg hk] at h
      simp [eraseKey, hk, ← ih h]

theorem lruStep_size_le (cap : Nat) (hcap : 0 < cap) (c : LRUCache K V)
    (hlim : c.limit = cap) (hle : c.entries.length ≤ cap) (op : LruOp K V) :
    (lruStep c op).limit = cap ∧ (lruStep c op).entries.length ≤ cap := by
  cases op with
  | get k =>
    simp only [lruStep, lruGet]
    cases h : assocFind k c.entries with
    | none => exact ⟨hlim, hle⟩
    | some v =>
      refine ⟨hlim, ?_⟩
      simpa [assocFind_erase_length k c.entries v h] using hle
  | set k v =>
    simp only [lruStep, lruSet]
    by_cases h : (assocFind k c.entries).isSome
    · rw [if_pos h]
      obtain ⟨v', hv'⟩ := Option.isSome_iff_exists.mp h
      refine ⟨hlim, ?_⟩
      simpa [assocFind_erase_length k c.entries v' hv'] using hle
    · rw [if_neg h]
      by_cases hfull : c.entries.length ≥ c.limit
      · rw [if_pos hfull]
        cases hc : c.entries with
        | nil => exact ⟨hlim, by simpa using hcap⟩
        | cons a rest =>
          refine ⟨hlim, ?_⟩
          have : rest.length + 1 = c.entries.length := by rw [hc]; simp
          simp only [List.length_append, List.length_cons, List.length_nil]
          omega
      · rw [if_neg hfull]
        refine ⟨hlim, ?_⟩
        simp only [List.length_append, List.length_cons, List.length_nil]
        omega

theorem lruRun_size_le (cap : Nat) (hcap : 0 < cap) (ops : List (LruOp K V)) :
    ∀ (c : LRUCache K V), c.limit = cap → c.entries.length ≤ cap →
      (lruRun c ops).limit = cap ∧ (lruRun c ops).entries.length ≤ cap := by
  induction ops with
  | nil => intro c h1 h2; exact ⟨h1, h2⟩
  | cons op rest ih =>
    intro c h1 h2
    have hstep := lruStep_size_le cap hcap c h1 h2 op
    exact ih (lruStep c op) hstep.1 hstep.2

/-- C8: for every sequence of `get`/`set` operations from an empty cache of
positive capacity the entry count never exceeds the capacity; a `get` hit
returns the stored value and re-inserts the entry at the most-recently-used
end without changing the size; a `set` on a present key replaces it at the
most-recently-used end without evicting; a `set` on a new key when the cache
is full first evicts the oldest (head) entry. -/
theorem lruCache_invariants (K V : Type) [DecidableEq K] :
    (∀ (cap : Nat), 0 < cap → ∀ (ops : List (LruOp K V)),
        lruSize (lruRun (⟨cap, []⟩ : LRUCache K V) ops) ≤ cap) ∧
    (∀ (c : LRUCache K V) (k : K) (v : V),
        assocFind k c.entries = some v →
        (lruGet c k).1 = some v ∧
        (lruGet c k).2.entries = eraseKey k c.entries ++ [(k, v)] ∧
        (lruGet c k).2.entries.length = c.entries.length) ∧
    (∀ (c : LRUCache K V) (k : K) (v v₀ : V),
        assocFind k c.entries = some v₀ →
        lruSet c k v = ⟨c.limit, eraseKey k c.entries ++ [(k, v)]⟩ ∧
        (lruSet c k v).entries.length = c.entries.length) ∧
    (∀ (c : LRUCache K V) (k : K) (v : V),
        assocFind k c.entries = none → c.entries.length = c.limit → 0 < c.limit →
        lruSet c k v = ⟨c.limit, c.entries.tail ++ [(k, v)]⟩) := by
  refine ⟨?_, ?_, ?_, ?_⟩
  · intro cap hcap ops
    exact (lruRun_size_le cap hcap ops ⟨cap, []⟩ rfl (by simp)).2
  · intro c k v h
    refine ⟨by simp [lruGet, h], by simp [lruGet, h], ?_⟩
    simp only [lruGet, h, List.length_append, List.length_cons, List.length_nil]
    have := assocFind_erase_length k c.entries v h
    omega
  · intro c k v v₀ h
    have hs : (assocFind k c.entries).isSome := by simp [h]
    refine ⟨by simp [lruSet, hs], ?_⟩
    simp only [lruSet, if_pos hs, List.length_append, List.length_cons, List.length_nil]
    have := assocFind_erase_length k c.entries v₀ h
    omega
  · intro c k v h hfull hpos
    cases hc : c.entries with
    | nil => rw [hc] at hfull; simp at hfull; omega
    | cons a rest =>
      unfold lruSet
      rw [hc] at h hfull ⊢
      rw [h]
      rw [if_neg (by simp : ¬((none : Option V).isSome = true))]
      rw [if_pos (le_of_eq hfull.symm)]
      rfl

theorem lruCache_invariants_witness :
    lruSize (lruRun (⟨2, []⟩ : LRUCache Nat Nat) [.set 1 10, .set 2 20, .set 3 30]) ≤ 2 ∧
    (lruGet (⟨2, [(1, 10), (2, 20)]⟩ : LRUCache Nat Nat) 1).1 = some 10 ∧
    lruSet (⟨2, [(1, 10), (2, 20)]⟩ : LRUCache Nat Nat) 1 11
      = ⟨2, [(2, 20), (1, 11)]⟩ ∧
    lruSet (⟨2, [(1, 10), (2, 20)]⟩ : LRUCache Nat Nat) 3 30
      = ⟨2, [(2, 20), (3, 30)]⟩ := by
  refine ⟨(lruCache_invariants Nat Nat).1 2 (by decide) _, ?_, ?_, ?_⟩
  · exact ((lruCache_invariants Nat Nat).2.1 ⟨2, [(1, 10), (2, 20)]⟩ 1 10 (by decide)).1
  · exact ((lruCache_invariants Nat Nat).2.2.1 ⟨2, [(1, 10), (2, 20)]⟩ 1 11 10 (by decide)).1
  · exact (lruCache_invariants Nat Nat).2.2.2 ⟨2, [(1, 10), (2, 20)]⟩ 3 30 (by decide)
      (by decide) (by decide)

/-! ## C5 — mapped problems are always valid ranges -/

theorem ite_some_eq_some {α : Type} (c : Prop) [Decidable c] (a q : α)
    (h : (if c then some a else none) = some q) : c ∧ a = q := by
  split at h
  · exact ⟨‹c›, Option.some.inj h⟩
  · simp at h

/-- C5: every record produced by `mapProblemsToPositions` satisfies
`from ≥ 0` and `from < to`, for all inputs: a problem whose mapped pair is
invalid is silently dropped, never emitted with defaulted positions. -/
theorem mapProblemsToPositions_valid (problems : List Problem)
    (sentences : List (List Char)) (pt : ProcessedText) :
    ∀ q ∈ mapProblemsToPositions problems sentences pt,
      0 ≤ q.«from» ∧ q.«from» < q.«to» := by
  intro q hq
  simp only [mapProblemsToPositions, List.mem_flatMap, List.mem_filterMap] at hq
  obtain ⟨problem, _, range, _, heq⟩ := hq
  cases hA : findSentenceIdx range.start sentences 0 0 with
  | none => rw [hA] at heq; simp at heq
  | some p =>
    obtain ⟨si, so⟩ := p
    rw [hA] at heq
    dsimp only at heq
    cases hB : findCleanedSentenceStart (cleanMarkdownFormatting pt.extractedText)
        sentences si 0 with
    | none => rw [hB] at heq; simp at heq
    | some cs =>
      rw [hB] at heq
      dsimp only at heq
      obtain ⟨hc, hq'⟩ := ite_some_eq_some _ _ _ heq
      cases hq'
      exact ⟨hc.2.2.2.1, hc.2.2.1⟩

theorem mapProblemsToPositions_valid_witness :
    0 ≤ (⟨exampleProblem, 0, 5, 0, 0⟩ : GrammarProblemWithPosition).«from» ∧
    (⟨exampleProblem, 0, 5, 0, 0⟩ : GrammarProblemWithPosition).«from»
      < (⟨exampleProblem, 0, 5, 0, 0⟩ : GrammarProblemWithPosition).«to» :=
  mapProblemsToPositions_valid [exampleProblem] [exampleSentence]
    (extractTextForGrammarCheck exampleSentence) ⟨exampleProblem, 0, 5, 0, 0⟩ (by decide)

/-! ## C9 — partial re-check merge -/

/-- C9 (amended): `applyPartialGrammarResults` keeps unchanged every tracked
problem lying entirely outside `[offset, offset + fragment.length)`, and the
result is exactly those kept problems followed by — when the result has
errors — the newly mapped problems shifted by `offset` that also satisfy
`from ≥ 0`, `to ≤ docLength` and `from < to`; every tracked problem
overlapping the range is removed. -/
theorem applyPartial_composition (existing : List GrammarProblemWithPosition)
    (offset : Int) (fragment : List Char) (result : GrammarCheckResult)
    (docLength : Nat) :
    (∀ p ∈ existing,
        (p.«to» ≤ offset ∨ p.«from» ≥ offset + (fragment.length : Int)) →
        p ∈ applyPartialGrammarResults existing offset fragment result docLength) ∧
    applyPartialGrammarResults existing offset fragment result docLength
      = existing.filter (fun p => decide (p.«to» ≤ offset) ||
            decide (p.«from» ≥ offset + (fragment.length : Int))) ++
        (if result.hasErrors then
          ((mapProblemsToPositions (result.problems.map (·.problem))
              result.processedSentences (extractTextForGrammarCheck fragment)).map fun p =>
            { p with «from» := p.«from» + offset, «to» := p.«to» + offset }).filter
            (fun p => decide (p.«from» ≥ 0) && decide (p.«to» ≤ (docLength : Int)) &&
              decide (p.«from» < p.«to»))
         else []) := by
  constructor
  · intro p hp hcond
    unfold applyPartialGrammarResults
    split
    · exact List.mem_append_left _ (List.mem_filter.mpr ⟨hp, by simpa using hcond⟩)
    · exact List.mem_filter.mpr ⟨hp, by simpa using hcond⟩
  · unfold applyPartialGrammarResults
    split
    · rfl
    · simp

theorem applyPartial_composition_witness :
    (⟨exampleProblem, 0, 2, 0, 0⟩ : GrammarProblemWithPosition)
      ∈ applyPartialGrammarResults [⟨exampleProblem, 0, 2, 0, 0⟩] 3 "abcd".toList
          ⟨[], [], 0, false⟩ 10 :=
  (applyPartial_composition [⟨exampleProblem, 0, 2, 0, 0⟩] 3 "abcd".toList
      ⟨[], [], 0, false⟩ 10).1 ⟨exampleProblem, 0, 2, 0, 0⟩ (by decide) (by decide)

/-- C9 counterexample: for the fragment `"Hello world."` the newly mapped,
offset-shifted problem list is `[(0, 5)]`, yet with a document of length 3
the function returns `[]` — the mapped problem is dropped by the bounds
filter, so the result is not "exactly the kept problems plus the newly
mapped problems shifted by offset" as the claim states. -/
theorem applyPartial_counterexample :
    ((mapProblemsToPositions [exampleProblem] [exampleSentence]
        (extractTextForGrammarCheck exampleSentence)).map fun p =>
      { p with «from» := p.«from» + 0, «to» := p.«to» + 0 })
      = [⟨exampleProblem, 0, 5, 0, 0⟩] ∧
    applyPartialGrammarResults [] 0 exampleSentence
        ⟨[⟨exampleProblem, 0⟩], [exampleSentence], 1, true⟩ 3 = [] ∧
    ([] : List GrammarProblemWithPosition) ≠ [] ++ [⟨exampleProblem, 0, 5, 0, 0⟩] := by
  refine ⟨by decide, by decide, by decide⟩

/-! ## C3 — near-identity of the position mapping without exclusions -/

/-- What whitespace collapsing does to a single character. -/
def wsSub (c : Char) : Char := if isWs c then ' ' else c

/-- No two consecutive whitespace characters (no internal multi-whitespace
runs). -/
def noDoubleWs : List Char → Bool
  | [] => true
  | [_] => true
  | a :: b :: rest => !(isWs a && isWs b) && noDoubleWs (b :: rest)

def headNonWs (l : List Char) : Bool :=
  match l.head? with
  | some c => !isWs c
  | none => true

def lastNonWs (l : List Char) : Bool :=
  match l.getLast? with
  | some c => !isWs c
  | none => true

theorem collapseWs_of_noDouble :
    ∀ (l : List Char), noDoubleWs l = true → collapseWsAux false l = l.map wsSub
  | [], _ => rfl
  | [c], _ => by
    by_cases h : isWs c = true <;> simp [collapseWsAux, wsSub, h]
  | a :: b :: rest, h => by
    have hab : ¬(isWs a = true ∧ isWs b = true) := by
      intro ⟨h1, h2⟩
      simp [noDoubleWs, h1, h2] at h
    have hrest : noDoubleWs (b :: rest) = true := by
      simp [noDoubleWs] at h
      exact h.2
    have ih := collapseWs_of_noDouble (b :: rest) hrest
    by_cases ha : isWs a = true
    · have hb : isWs b = false := by
        cases hisb : isWs b
        · rfl
        · exact absurd ⟨ha, hisb⟩ hab
      have ih' : collapseWsAux false rest = rest.map wsSub := by
        have hih : b :: collapseWsAux false rest = b :: rest.map wsSub := by
          simpa [collapseWsAux, hb, wsSub] using ih
        simpa using hih
      calc collapseWsAux false (a :: b :: rest)
          = ' ' :: collapseWsAux true (b :: rest) := by simp [collapseWsAux, ha]
        _ = ' ' :: b :: collapseWsAux false rest := by simp [collapseWsAux, hb]
        _ = ' ' :: b :: rest.map wsSub := by rw [ih']
        _ = (a :: b :: rest).map wsSub := by simp [wsSub, ha, hb]
    · calc collapseWsAux false (a :: b :: rest)
          = a :: collapseWsAux false (b :: rest) := by simp [collapseWsAux, ha]
        _ = a :: (b :: rest).map wsSub := by rw [ih]
        _ = (a :: b :: rest).map wsSub := by simp [wsSub, ha]

theorem dropWhile_eq_self_of_headNonWs (l : List Char) (h : headNonWs l = true) :
    l.dropWhile isWs = l := by
  cases l with
  | nil => rfl
  | cons c rest =>
    have : isWs c = false := by simpa [headNonWs] using h
    simp [List.dropWhile_cons, this]

theorem trimL_eq_self (l : List Char) (hh : headNonWs l = true)
    (hl : lastNonWs l = true) : trimL l = l := by
  unfold trimL
  rw [dropWhile_eq_self_of_headNonWs l hh]
  have hrev : headNonWs l.reverse = true := by
    unfold headNonWs
    rw [List.head?_reverse]
    unfold lastNonWs at hl
    exact hl
  rw [dropWhile_eq_self_of_headNonWs l.reverse hrev, List.reverse_reverse]

theorem headNonWs_map_wsSub (l : List Char) (h : headNonWs l = true) :
    headNonWs (l.map wsSub) = true := by
  cases l with
  | nil => rfl
  | cons c rest =>
    have hc : isWs c = false := by simpa [headNonWs] using h
    simp [headNonWs, wsSub, hc]

theorem lastNonWs_map_wsSub (l : List Char) (h : lastNonWs l = true) :
    lastNonWs (l.map wsSub) = true := by
  unfold lastNonWs at h ⊢
  rw [List.getLast?_map]
  cases hg : l.getLast? with
  | none => rfl
  | some c =>
    rw [hg] at h
    have hc : isWs c = false := by simpa using h
    simp [wsSub, hc]

/-- With no exclusions the processed text of a nonempty document is a single
retained segment holding the whole document, and the extracted text is the
trimmed whitespace-collapse of the document. -/
theorem extractText_no_exclusions (md : List Char) (hne : md ≠ [])
    (hexcl : (extractTextForGrammarCheck md).exclusions = []) :
    extractTextForGrammarCheck md
      = ⟨[⟨md, 0, md.length, false⟩], trimL (collapseWs md), []⟩ := by
  have hmerged : mergeOverlappingExclusions (sortByStart (findAllExclusions md)) = [] := hexcl
  have hpos : 0 < md.length := List.length_pos.mpr hne
  have hseg : createSegments md [] = [⟨md, 0, md.length, false⟩] := by
    unfold createSegments createSegmentsGo
    rw [if_pos hpos]
    simp [sliceL]
  unfold extractTextForGrammarCheck
  rw [hmerged]
  dsimp only
  rw [hseg]
  simp [joinSpace]

/-- C3 (amended): for a nonempty document in which the scanner finds no
exclusions, with no internal runs of multiple whitespace characters and no
leading or trailing whitespace, `mapProcessedPositionToOriginal` is the
identity on every offset `k < length`; the end-exclusive offset `k = length`
maps to `length - 1` (clamped), not to `length`. -/
theorem mapProcessed_identity (md : List Char) (hne : md ≠ [])
    (hexcl : (extractTextForGrammarCheck md).exclusions = [])
    (hdw : noDoubleWs md = true) (hh : headNonWs md = true)
    (hl : lastNonWs md = true) :
    (∀ k, k < md.length →
        mapProcessedPositionToOriginal k (extractTextForGrammarCheck md) = k) ∧
    mapProcessedPositionToOriginal md.length (extractTextForGrammarCheck md)
      = md.length - 1 := by
  have hext : trimL (collapseWs md) = md.map wsSub := by
    show trimL (collapseWsAux false md) = md.map wsSub
    rw [collapseWs_of_noDouble md hdw]
    exact trimL_eq_self _ (headNonWs_map_wsSub md hh) (lastNonWs_map_wsSub md hl)
  have hpt := extractText_no_exclusions md hne hexcl
  rw [hpt, hext]
  have hmap : ∀ k, mapProcessedPositionToOriginal k
      (⟨[⟨md, 0, md.length, false⟩], md.map wsSub, []⟩ : ProcessedText)
      = min k (md.length - 1) := by
    intro k
    unfold mapProcessedPositionToOriginal
    dsimp only
    rw [if_pos rfl, if_neg (by simp)]
  constructor
  · intro k hk
    rw [hmap k]
    omega
  · rw [hmap md.length]
    omega

theorem mapProcessed_identity_witness :
    mapProcessedPositionToOriginal 1 (extractTextForGrammarCheck "ab cd".toList) = 1 ∧
    mapProcessedPositionToOriginal "ab cd".toList.length
        (extractTextForGrammarCheck "ab cd".toList)
      = "ab cd".toList.length - 1 := by
  have h := mapProcessed_identity "ab cd".toList (by decide) (by decide) (by decide)
    (by decide) (by decide)
  exact ⟨h.1 1 (by decide), h.2⟩

/-- C3 counterexample: `" ab"` has no exclusions and no internal
multi-whitespace run, yet offset 0 maps to 1 (leading whitespace is trimmed);
and for `"ab cd"` the valid end-exclusive offset 5 (the extracted length)
maps to 4, not 5. -/
theorem mapProcessed_identity_counterexample :
    (extractTextForGrammarCheck " ab".toList).exclusions = [] ∧
    noDoubleWs " ab".toList = true ∧
    mapProcessedPositionToOriginal 0 (extractTextForGrammarCheck " ab".toList) = 1 ∧
    (extractTextForGrammarCheck "ab cd".toList).exclusions = [] ∧
    noDoubleWs "ab cd".toList = true ∧
    (extractTextForGrammarCheck "ab cd".toList).extractedText.length = 5 ∧
    mapProcessedPositionToOriginal 5 (extractTextForGrammarCheck "ab cd".toList) = 4 := by
  decide

/-! ## C6 — local size limits -/

theorem splitIntoSentences_of_trim_nil (t : List Char) (h : trimL t = []) :
    splitIntoSentences t = [] := by
  unfold splitIntoSentences
  rw [h]
  rfl

theorem all_ws_of_trimL_nil (l : List Char) (h : trimL l = []) :
    ∀ c ∈ l, isWs c = true := by
  intro c hc
  have hsplit := List.takeWhile_append_dropWhile (p := isWs) (l := l)
  rw [← hsplit] at hc
  rcases List.mem_append.mp hc with htk | hdr
  · exact List.mem_takeWhile_imp htk
  · unfold trimL at h
    have h1 : (l.dropWhile isWs).reverse.dropWhile isWs = [] := by
      have := congrArg List.reverse h
      simpa using this
    have h2 : ∀ a ∈ (l.dropWhile isWs).reverse, isWs a = true :=
      List.dropWhile_eq_nil_iff.mp h1
    exact h2 c (List.mem_reverse.mpr hdr)

theorem trimL_nil_of_all_ws (l : List Char) (h : ∀ c ∈ l, isWs c = true) :
    trimL l = [] := by
  unfold trimL
  rw [List.dropWhile_eq_nil_iff.mpr h]
  rfl

theorem segment_text_subset (text : List Char) :
    ∀ (l : List TextExclusion) (pos : Nat), ∀ seg ∈ createSegmentsGo text pos l,
      seg.isExcluded = false → ∀ c ∈ seg.text, c ∈ text := by
  intro l
  induction l with
  | nil =>
    intro pos seg hseg _ c hc
    unfold createSegmentsGo at hseg
    split at hseg
    · simp only [List.mem_singleton] at hseg
      subst hseg
      exact (text.drop_sublist pos).subset ((List.take_sublist _ _).subset hc)
    · simp at hseg
  | cons e rest ih =>
    intro pos seg hseg hexc c hc
    unfold createSegmentsGo at hseg
    rcases List.mem_append.mp hseg with hgap | hrest
    · split at hgap
      · simp only [List.mem_singleton] at hgap
        subst hgap
        exact (text.drop_sublist pos).subset ((List.take_sublist _ _).subset hc)
      · simp at hgap
    · rcases List.mem_cons.mp hrest with hexcl | hrec
      · subst hexcl
        simp at hexc
      · exact ih e.«end» seg hrec hexc c hc

theorem joinSpace_all_ws :
    ∀ (parts : List (List Char)),
      (∀ part ∈ parts, ∀ c ∈ part, isWs c = true) →
      ∀ c ∈ joinSpace parts, isWs c = true
  | [], _, c, hc => by simp [joinSpace] at hc
  | [x], h, c, hc => h x (by simp) c (by simpa [joinSpace] using hc)
  | x :: y :: xs, h, c, hc => by
    rw [show joinSpace (x :: y :: xs) = x ++ ' ' :: joinSpace (y :: xs) from rfl] at hc
    rcases List.mem_append.mp hc with hx | hys
    · exact h x (by simp) c hx
    · rcases List.mem_cons.mp hys with hsp | hrec
      · subst hsp; decide
      · exact joinSpace_all_ws (y :: xs) (fun p hp => h p (List.mem_cons_of_mem x hp)) c hrec

theorem mem_collapseWsAux :
    ∀ (l : List Char) (b : Bool), ∀ c ∈ collapseWsAux b l, c = ' ' ∨ c ∈ l
  | [], _, c, hc => by simp [collapseWsAux] at hc
  | a :: rest, b, c, hc => by
    unfold collapseWsAux at hc
    split at hc
    · split at hc
      · rcases mem_collapseWsAux rest true c hc with h | h
        · exact Or.inl h
        · exact Or.inr (List.mem_cons_of_mem a h)
      · rcases List.mem_cons.mp hc with h | h
        · exact Or.inl h
        · rcases mem_collapseWsAux rest true c h with h' | h'
          · exact Or.inl h'
          · exact Or.inr (List.mem_cons_of_mem a h')
    · rcases List.mem_cons.mp hc with h | h
      · exact Or.inr (h ▸ List.mem_cons_self a rest)
      · rcases mem_collapseWsAux rest false c h with h' | h'
        · exact Or.inl h'
        · exact Or.inr (List.mem_cons_of_mem a h')

/-- A document consisting of whitespace only extracts to the empty string. -/
theorem extractedText_nil_of_all_ws (text : List Char) (h : trimL text = []) :
    (extractTextForGrammarCheck text).extractedText = [] := by
  have hws := all_ws_of_trimL_nil text h
  show trimL (collapseWs (joinSpace _)) = []
  apply trimL_nil_of_all_ws
  intro c hc
  rcases mem_collapseWsAux _ false c hc with hsp | hjs
  · subst hsp; decide
  · refine joinSpace_all_ws _ ?_ c hjs
    intro part hpart c' hc'
    simp only [List.mem_map] at hpart
    obtain ⟨seg, hseg, htext⟩ := hpart
    rw [List.mem_filter] at hseg
    have hex : seg.isExcluded = false := by
      have := hseg.2
      simp at this
      exact this
    exact hws c' (segment_text_subset text _ 0 seg hseg.1 hex c' (htext ▸ hc'))

/-- C6: `checkText` fails with one of the two size errors exactly when the
splitter yields more than 100 sentences or more than 50,000 characters are
queued (the length of the joined sentences), and whenever the external
service was called the limits were not exceeded (equivalently: when a limit
is exceeded the check fails locally without a service call). -/
theorem checkText_size_limits (client : CheckRequest → List SentenceWithProblems)
    (settings : PluginSettings) (cache : LRUCache (List Char) SentenceWithProblems)
    (text : List Char) :
    (((checkText client settings cache text).1 = Except.error msgTooManySentences ∨
      (checkText client settings cache text).1 = Except.error msgTooManyCharacters) ↔
      ((splitIntoSentences (extractTextForGrammarCheck text).extractedText).length > 100 ∨
       (joinSpace (splitIntoSentences
          (extractTextForGrammarCheck text).extractedText)).length > 50000)) ∧
    ((checkText client settings cache text).2.2 = true →
      ¬((splitIntoSentences (extractTextForGrammarCheck text).extractedText).length > 100 ∨
        (joinSpace (splitIntoSentences
           (extractTextForGrammarCheck text).extractedText)).length > 50000)) := by
  by_cases h1 : trimL text = []
  · have hs : splitIntoSentences (extractTextForGrammarCheck text).extractedText = [] := by
      apply splitIntoSentences_of_trim_nil
      rw [extractedText_nil_of_all_ws text h1]
      rfl
    have hck : checkText client settings cache text = (.ok emptyCheckResult, cache, false) := by
      simp [checkText, h1]
    rw [hck, hs]
    constructor
    · simp [joinSpace]
    · simp
  · by_cases h2 : trimL (extractTextForGrammarCheck text).extractedText = []
    · have hs : splitIntoSentences (extractTextForGrammarCheck text).extractedText = [] :=
        splitIntoSentences_of_trim_nil _ h2
      have hck : checkText client settings cache text = (.ok emptyCheckResult, cache, false) := by
        simp [checkText, h1, h2]
      rw [hck, hs]
      constructor
      · simp [joinSpace]
      · simp
    · by_cases h3 :
        (splitIntoSentences (extractTextForGrammarCheck text).extractedText).length > 100
      · have hck : checkText client settings cache text
            = (.error msgTooManySentences, cache, false) := by
          simp [checkText, h1, h2, h3]
        rw [hck]
        constructor
        · simp [h3]
        · simp
      · by_cases h4 : (joinSpace (splitIntoSentences
            (extractTextForGrammarCheck text).extractedText)).length > 50000
        · have hck : checkText client settings cache text
              = (.error msgTooManyCharacters, cache, false) := by
            simp [checkText, h1, h2, h3, h4]
          rw [hck]
          have hmsg : msgTooManyCharacters ≠ msgTooManySentences := by decide
          constructor
          · simp [h4, hmsg]
          · simp
        · have hck : checkText client settings cache text
              = (.ok (checkTextTail client settings cache
                    (splitIntoSentences (extractTextForGrammarCheck text).extractedText)).1,
                 (checkTextTail client settings cache
                    (splitIntoSentences (extractTextForGrammarCheck text).extractedText)).2.1,
                 (checkTextTail client settings cache
                    (splitIntoSentences (extractTextForGrammarCheck text).extractedText)).2.2) := by
            simp [checkText, h1, h2, h3, h4]
          rw [hck]
          constructor
          · simp [h3, h4]
          · intro _
            exact not_or.mpr ⟨h3, h4⟩

theorem checkText_size_limits_witness :
    ¬((splitIntoSentences
        (extractTextForGrammarCheck "Hello world.".toList).extractedText).length > 100 ∨
      (joinSpace (splitIntoSentences
        (extractTextForGrammarCheck "Hello world.".toList).extractedText)).length > 50000) :=
  (checkText_size_limits exampleClient exampleSettings emptySentenceCache
    "Hello world.".toList).2 (by decide)

/-! ## C1 — segments partition the document -/

/-- Every exclusion the scanners produce lies inside the document. -/
def exclInv (len : Nat) (e : TextExclusion) : Prop :=
  e.start ≤ e.«end» ∧ e.«end» ≤ len

theorem chAt_lt (s : List Char) (i : Nat) (c : Char) (h : chAt s i c = true) :
    i < s.length := by
  by_contra hlt
  have hnone : s.get? i = none := List.get?_eq_none.mpr (by omega)
  unfold chAt at h
  rw [hnone] at h
  simp at h

theorem isPrefixAt_add_le (pat s : List Char) (i : Nat) (hne : pat ≠ [])
    (h : isPrefixAt pat s i = true) : i + pat.length ≤ s.length := by
  unfold isPrefixAt at h
  have hp : pat <+: s.drop i := by rwa [List.isPrefixOf_iff_prefix] at h
  have hlen := hp.length_le
  rw [List.length_drop] at hlen
  have hplen : 0 < pat.length := List.length_pos.mpr hne
  omega

theorem runEnd_le (p : Char → Bool) (s : List Char) (i : Nat) (h : i ≤ s.length) :
    runEnd p s i ≤ s.length := by
  unfold runEnd
  have h1 : ((s.drop i).takeWhile p).length ≤ (s.drop i).length :=
    (List.takeWhile_sublist _).length_le
  rw [List.length_drop] at h1
  omega

theorem le_runEnd (p : Char → Bool) (s : List Char) (i : Nat) : i ≤ runEnd p s i :=
  Nat.le_add_right _ _

theorem lineStart_le (s : List Char) (i : Nat) (h : isLineStart s i = true) :
    i ≤ s.length := by
  unfold isLineStart at h
  rcases Bool.or_eq_true_iff.mp h with h0 | hc
  · simp only [beq_iff_eq] at h0
    omega
  · rcases hg : s.get? (i - 1) with _ | c
    · rw [hg] at hc; simp at hc
    · have : i - 1 < s.length := by
        by_contra hlt
        rw [List.get?_eq_none.mpr (by omega)] at hg
        cases hg
      rcases Nat.eq_zero_or_pos i with h0 | h0
      · omega
      · omega

theorem findFromAux_spec (pat s : List Char) :
    ∀ (fuel i j : Nat), findFromAux pat s fuel i = some j →
      isPrefixAt pat s j = true ∧ i ≤ j := by
  intro fuel
  induction fuel with
  | zero => intro i j h; simp [findFromAux] at h
  | succ f ih =>
    intro i j h
    unfold findFromAux at h
    split at h
    · cases h
      exact ⟨‹_›, Nat.le_refl _⟩
    · split at h
      · simp at h
      · obtain ⟨h1, h2⟩ := ih (i + 1) j h
        exact ⟨h1, by omega⟩

theorem findFrom_spec (pat s : List Char) (i j : Nat) (h : findFrom pat s i = some j) :
    isPrefixAt pat s j = true ∧ i ≤ j :=
  findFromAux_spec pat s _ i j h

theorem findFMCloseAux_spec (s : List Char) :
    ∀ (fuel i j : Nat), findFMCloseAux s fuel i = some j →
      isPrefixAt "---".toList s j = true := by
  intro fuel
  induction fuel with
  | zero => intro i j h; simp [findFMCloseAux] at h
  | succ f ih =>
    intro i j h
    unfold findFMCloseAux at h
    split at h
    · cases h
      exact (Bool.and_eq_true_iff.mp ‹_›).2
    · split at h
      · simp at h
      · exact ih (i + 1) j h

theorem mkExcl_start (s : List Char) (i j : Nat) (t : ExclusionType) :
    (mkExcl s i j t).start = i := rfl

theorem mkExcl_end (s : List Char) (i j : Nat) (t : ExclusionType) :
    (mkExcl s i j t).«end» = j := rfl

theorem fencedStep_inv (s : List Char) (i n : Nat) (e : TextExclusion)
    (h : fencedStep s i = some (n, e)) : exclInv s.length e := by
  unfold fencedStep at h
  split at h
  · cases hf : findFrom "```".toList s (i + 3) with
    | none => rw [hf] at h; simp at h
    | some j =>
      rw [hf] at h
      obtain ⟨hpre, hle⟩ := findFrom_spec _ s _ j hf
      have := isPrefixAt_add_le _ s j (by decide) hpre
      simp only [Option.map_some', Option.some.injEq, Prod.mk.injEq] at h
      obtain ⟨-, he⟩ := h
      subst he
      exact ⟨by dsimp only [mkExcl]; omega, by simp [mkExcl]; simpa using this⟩
  · split at h
    · cases hf : findFrom "~~~".toList s (i + 3) with
      | none => rw [hf] at h; simp at h
      | some j =>
        rw [hf] at h
        obtain ⟨hpre, hle⟩ := findFrom_spec _ s _ j hf
        have := isPrefixAt_add_le _ s j (by decide) hpre
        simp only [Option.map_some', Option.some.injEq, Prod.mk.injEq] at h
        obtain ⟨-, he⟩ := h
        subst he
        exact ⟨by dsimp only [mkExcl]; omega, by simp [mkExcl]; simpa using this⟩
    · simp at h

theorem indentedStep_inv (s : List Char) (i n : Nat) (e : TextExclusion)
    (h : indentedStep s i = some (n, e)) : exclInv s.length e := by
  unfold indentedStep at h
  split at h
  · next hcond =>
    simp only [Option.some.injEq, Prod.mk.injEq] at h
    obtain ⟨-, he⟩ := h
    subst he
    have hi : i ≤ s.length := by
      rcases Bool.and_eq_true_iff.mp hcond with ⟨-, hor⟩
      rcases Bool.or_eq_true_iff.mp hor with hp | ht
      · have := isPrefixAt_add_le _ s i (by decide) hp
        omega
      · have := chAt_lt s i '\t' ht
        omega
    exact ⟨le_runEnd _ s i, runEnd_le _ s i hi⟩
  · simp at h

theorem inlineCodeStep_inv (s : List Char) (i n : Nat) (e : TextExclusion)
    (h : inlineCodeStep s i = some (n, e)) : exclInv s.length e := by
  by_cases hbt : chAt s i '`' = true
  · by_cases hbt2 : chAt s (i + 1) '`' = true
    · have hi1 : i + 1 < s.length := chAt_lt s (i + 1) '`' hbt2
      by_cases hcl : chAt s (runEnd notBacktickNl s (i + 2)) '`' = true
      · have hj := chAt_lt s _ '`' hcl
        have hij := le_runEnd notBacktickNl s (i + 2)
        simp [inlineCodeStep, hbt, hbt2, hcl] at h
        obtain ⟨-, he⟩ := h
        have hend : runEnd notBacktickNl s (i + 2) +
            (if chAt s (runEnd notBacktickNl s (i + 2) + 1) '`' = true then 2 else 1)
            ≤ s.length := by
          split
          · next hx => have := chAt_lt s _ '`' hx; omega
          · omega
        subst he
        exact ⟨by dsimp only [mkExcl]; omega, by dsimp only [mkExcl]; omega⟩
      · simp [inlineCodeStep, hbt, hbt2, hcl] at h
        obtain ⟨-, he⟩ := h
        have hend : i + 1 + (if chAt s (i + 2) '`' = true then 2 else 1) ≤ s.length := by
          split
          · next hx => have := chAt_lt s _ '`' hx; omega
          · omega
        subst he
        exact ⟨by dsimp only [mkExcl]; omega, by dsimp only [mkExcl]; omega⟩
    · by_cases hcl : chAt s (runEnd notBacktickNl s (i + 1)) '`' = true
      · have hj := chAt_lt s _ '`' hcl
        have hij := le_runEnd notBacktickNl s (i + 1)
        simp [inlineCodeStep, hbt, hbt2, hcl] at h
        obtain ⟨-, he⟩ := h
        have hend : runEnd notBacktickNl s (i + 1) +
            (if chAt s (runEnd notBacktickNl s (i + 1) + 1) '`' = true then 2 else 1)
            ≤ s.length := by
          split
          · next hx => have := chAt_lt s _ '`' hx; omega
          · omega
        subst he
        exact ⟨by dsimp only [mkExcl]; omega, by dsimp only [mkExcl]; omega⟩
      · simp [inlineCodeStep, hbt, hbt2, hcl] at h
  · simp [inlineCodeStep, hbt] at h

theorem mathBlockStep_inv (s : List Char) (i n : Nat) (e : TextExclusion)
    (h : mathBlockStep s i = some (n, e)) : exclInv s.length e := by
  unfold mathBlockStep at h
  split at h
  · cases hf : findFrom "$$".toList s (i + 2) with
    | none => rw [hf] at h; simp at h
    | some j =>
      rw [hf] at h
      obtain ⟨hpre, hle⟩ := findFrom_spec _ s _ j hf
      have := isPrefixAt_add_le _ s j (by decide) hpre
      have hlen2 : ("$$".toList).length = 2 := rfl
      simp only [Option.map_some', Option.some.injEq, Prod.mk.injEq] at h
      obtain ⟨-, he⟩ := h
      subst he
      exact ⟨by dsimp only [mkExcl]; omega, by dsimp only [mkExcl]; omega⟩
  · simp at h

theorem inlineMathStep_inv (s : List Char) (i n : Nat) (e : TextExclusion)
    (h : inlineMathStep s i = some (n, e)) : exclInv s.length e := by
  by_cases hd : chAt s i '$' = true
  · by_cases hcl : chAt s (runEnd notDollarNl s (i + 1)) '$' = true
    · have hj := chAt_lt s _ '$' hcl
      have hij := le_runEnd notDollarNl s (i + 1)
      simp [inlineMathStep, hd, hcl] at h
      obtain ⟨-, he⟩ := h
      subst he
      exact ⟨by dsimp only [mkExcl]; omega, by dsimp only [mkExcl]; omega⟩
    · simp [inlineMathStep, hd, hcl] at h
  · simp [inlineMathStep, hd] at h

theorem imageStep_inv (s : List Char) (i n : Nat) (e : TextExclusion)
    (h : imageStep s i = some (n, e)) : exclInv s.length e := by
  by_cases hb : (chAt s i '!' && chAt s (i + 1) '[') = true
  · by_cases hj : (chAt s (runEnd notRBracket s (i + 2)) ']' &&
        chAt s (runEnd notRBracket s (i + 2) + 1) '(') = true
    · by_cases hk : chAt s
          (runEnd notRParen s (runEnd notRBracket s (i + 2) + 2)) ')' = true
      · have hklt := chAt_lt s _ ')' hk
        have hge1 := le_runEnd notRBracket s (i + 2)
        have hge2 := le_runEnd notRParen s (runEnd notRBracket s (i + 2) + 2)
        simp [imageStep, Bool.and_eq_true_iff.mp hb, Bool.and_eq_true_iff.mp hj, hk] at h
        obtain ⟨-, he⟩ := h
        subst he
        exact ⟨by dsimp only [mkExcl]; omega, by dsimp only [mkExcl]; omega⟩
      · simp [imageStep, Bool.and_eq_true_iff.mp hb, Bool.and_eq_true_iff.mp hj, hk] at h
    · rcases Bool.and_eq_true_iff.mp hb with ⟨h1, h2⟩
      simp only [imageStep, h1, h2] at h
      rw [if_pos (by simp)] at h
      rw [if_neg (by simpa using hj)] at h
      simp at h
  · simp only [imageStep] at h
    rw [if_neg (by simpa using hb)] at h
    simp at h

theorem linkMatchAt_inv (s : List Char) (i n : Nat) (e : TextExclusion)
    (h : linkMatchAt s i = some (n, e)) : exclInv s.length e := by
  by_cases hb : chAt s i '[' = true
  · unfold linkMatchAt at h
    rw [if_pos hb] at h
    dsimp only at h
    split at h
    · next r halt1 =>
      -- alt1 succeeded
      by_cases hpre : (!(decide (i > 0) && chAt s (i - 1) '!') && chAt s
          (runEnd notRBracket s (i + 1)) ']' &&
          chAt s (runEnd notRBracket s (i + 1) + 1) '(') = true
      · by_cases hk : chAt s
            (runEnd notRParen s (runEnd notRBracket s (i + 1) + 2)) ')' = true
        · have hklt := chAt_lt s _ ')' hk
          have hge1 := le_runEnd notRBracket s (i + 1)
          have hge2 := le_runEnd notRParen s (runEnd notRBracket s (i + 1) + 2)
          rw [if_pos hpre, if_pos hk] at halt1
          cases halt1
          cases h
          exact ⟨by dsimp only [mkExcl]; omega, by dsimp only [mkExcl]; omega⟩
        · rw [if_pos hpre, if_neg hk] at halt1
          cases halt1
      · rw [if_neg hpre] at halt1
        cases halt1
    · -- alt1 failed, alt2
      by_cases hj : (chAt s (runEnd notRBracket s (i + 1)) ']' &&
          chAt s (runEnd notRBracket s (i + 1) + 1) '[') = true
      · by_cases hk : chAt s
            (runEnd notRBracket s (runEnd notRBracket s (i + 1) + 2)) ']' = true
        · have hklt := chAt_lt s _ ']' hk
          have hge1 := le_runEnd notRBracket s (i + 1)
          have hge2 := le_runEnd notRBracket s (runEnd notRBracket s (i + 1) + 2)
          rw [if_pos hj, if_pos hk] at h
          cases h
          exact ⟨by dsimp only [mkExcl]; omega, by dsimp only [mkExcl]; omega⟩
        · rw [if_pos hj, if_neg hk] at h
          cases h
      · rw [if_neg hj] at h
        cases h
  · simp [linkMatchAt, hb] at h

theorem autolinkStep_inv (s : List Char) (i n : Nat) (e : TextExclusion)
    (h : autolinkStep s i = some (n, e)) : exclInv s.length e := by
  by_cases hb : (chAt s i '<' && isPrefixAt "http".toList s (i + 1)) = true
  · by_cases hs5 : chAt s (i + 5) 's' = true
    · have hq : (if chAt s (i + 5) 's' = true then i + 6 else i + 5) = i + 6 := if_pos hs5
      unfold autolinkStep at h
      rw [if_pos hb] at h
      dsimp only at h
      rw [hq] at h
      by_cases hpre : isPrefixAt "://".toList s (i + 6) = true
      · rw [if_pos hpre] at h
        split at h
        · next hcond =>
          rcases Bool.and_eq_true_iff.mp hcond with ⟨hgt, hch⟩
          have hklt := chAt_lt s _ '>' hch
          have hge := le_runEnd notGt s (i + 6 + 3)
          cases h
          exact ⟨by dsimp only [mkExcl]; omega, by dsimp only [mkExcl]; omega⟩
        · exact Option.noConfusion h
      · rw [if_neg hpre] at h
        exact Option.noConfusion h
    · have hq : (if chAt s (i + 5) 's' = true then i + 6 else i + 5) = i + 5 := if_neg hs5
      unfold autolinkStep at h
      rw [if_pos hb] at h
      dsimp only at h
      rw [hq] at h
      by_cases hpre : isPrefixAt "://".toList s (i + 5) = true
      · rw [if_pos hpre] at h
        split at h
        · next hcond =>
          rcases Bool.and_eq_true_iff.mp hcond with ⟨hgt, hch⟩
          have hklt := chAt_lt s _ '>' hch
          have hge := le_runEnd notGt s (i + 5 + 3)
          cases h
          exact ⟨by dsimp only [mkExcl]; omega, by dsimp only [mkExcl]; omega⟩
        · exact Option.noConfusion h
      · rw [if_neg hpre] at h
        exact Option.noConfusion h
  · unfold autolinkStep at h
    rw [if_neg hb] at h
    exact Option.noConfusion h

theorem htmlStep_inv (s : List Char) (i n : Nat) (e : TextExclusion)
    (h : htmlStep s i = some (n, e)) : exclInv s.length e := by
  by_cases hb : chAt s i '<' = true
  · unfold htmlStep at h
    rw [if_pos hb] at h
    dsimp only at h
    split at h
    · next hcond =>
      rcases Bool.and_eq_true_iff.mp hcond with ⟨hgt, hch⟩
      have hklt := chAt_lt s _ '>' hch
      have hge := le_runEnd notGt s (i + 1)
      cases h
      exact ⟨by dsimp only [mkExcl]; omega, by dsimp only [mkExcl]; omega⟩
    · cases h
  · simp [htmlStep, hb] at h

theorem headerStep_inv (s : List Char) (i n : Nat) (e : TextExclusion)
    (h : headerStep s i = some (n, e)) : exclInv s.length e := by
  by_cases hls : isLineStart s i = true
  · have hi : i ≤ s.length := lineStart_le s i hls
    have hhash : runEnd isHash s i ≤ s.length := runEnd_le _ s i hi
    have hhashge := le_runEnd isHash s i
    unfold headerStep at h
    rw [if_pos hls] at h
    dsimp only at h
    split at h
    · next hr =>
      split at h
      · next hw =>
        have hir : i + (runEnd isHash s i - i) ≤ s.length := by omega
        have hwle : runEnd isWs s (i + (runEnd isHash s i - i)) ≤ s.length :=
          runEnd_le _ s _ hir
        have hele : runEnd notNlCr s
            (runEnd isWs s (i + (runEnd isHash s i - i))) ≤ s.length :=
          runEnd_le _ s _ hwle
        have hege := le_runEnd notNlCr s
            (runEnd isWs s (i + (runEnd isHash s i - i)))
        have hwge := le_runEnd isWs s (i + (runEnd isHash s i - i))
        cases h
        exact ⟨by dsimp only [mkExcl]; omega, by dsimp only [mkExcl]; omega⟩
      · cases h
    · cases h
  · simp [headerStep, hls] at h

theorem findFrontmatter_inv (s : List Char) (e : TextExclusion)
    (h : e ∈ findFrontmatter s) : exclInv s.length e := by
  unfold findFrontmatter at h
  split at h
  · split at h
    · next j hj =>
      have hpre := findFMCloseAux_spec s _ 3 j hj
      have := isPrefixAt_add_le _ s j (by decide) hpre
      have hlen3 : ("---".toList).length = 3 := rfl
      simp only [List.mem_singleton] at h
      subst h
      exact ⟨by dsimp only [mkExcl]; omega, by dsimp only [mkExcl]; omega⟩
    · simp at h
  · simp at h

theorem scanGen_inv {α : Type} (step : Nat → Option (Nat × α)) (P : α → Prop)
    (hstep : ∀ i n e, step i = some (n, e) → P e) :
    ∀ (fuel i : Nat), ∀ e ∈ scanGen step fuel i, P e := by
  intro fuel
  induction fuel with
  | zero => intro i e he; simp [scanGen] at he
  | succ f ih =>
    intro i e he
    unfold scanGen at he
    cases hs : step i with
    | none =>
      rw [hs] at he
      exact ih (i + 1) e he
    | some p =>
      obtain ⟨n1, e1⟩ := p
      rw [hs] at he
      have he2 : e ∈ e1 :: scanGen step f n1 := he
      rcases List.mem_cons.mp he2 with h1 | h2
      · exact h1 ▸ hstep i n1 e1 hs
      · exact ih n1 e h2

theorem findLinksAux_inv (s : List Char) (P : TextExclusion → Prop)
    (hstep : ∀ i n e, linkMatchAt s i = some (n, e) → P e) :
    ∀ (fuel : Nat) (acc : List TextExclusion) (i : Nat),
      (∀ e ∈ acc, P e) → ∀ e ∈ findLinksAux s acc fuel i, P e := by
  intro fuel
  induction fuel with
  | zero => intro acc i hacc e he; exact hacc e he
  | succ f ih =>
    intro acc i hacc e he
    unfold findLinksAux at he
    cases hs : linkMatchAt s i with
    | none =>
      rw [hs] at he
      exact ih acc (i + 1) hacc e he
    | some p =>
      obtain ⟨n1, e1⟩ := p
      rw [hs] at he
      have he2 : e ∈ findLinksAux s
          (if overlapsAny acc e1 then acc else acc ++ [e1]) f n1 := he
      refine ih _ _ ?_ e he2
      split
      · exact hacc
      · intro x hx
        rcases List.mem_append.mp hx with h1 | h2
        · exact hacc x h1
        · rcases List.mem_singleton.mp h2 with rfl
          exact hstep i n1 _ hs

theorem findAllExclusions_inv (s : List Char) :
    ∀ e ∈ findAllExclusions s, exclInv s.length e := by
  intro e he
  unfold findAllExclusions at he
  dsimp only at he
  rcases List.mem_append.mp he with h1 | hHdr
  swap
  · exact scanGen_inv _ _ (fun i n e h => headerStep_inv s i n e h) _ _ e hHdr
  rcases List.mem_append.mp h1 with h2 | hHtml
  swap
  · exact scanGen_inv _ _ (fun i n e h => htmlStep_inv s i n e h) _ _ e hHtml
  rcases List.mem_append.mp h2 with hLinks | hAuto
  swap
  · exact scanGen_inv _ _ (fun i n e h => autolinkStep_inv s i n e h) _ _ e hAuto
  refine findLinksAux_inv s _ (fun i n e h => linkMatchAt_inv s i n e h) _ _ _ ?_ e hLinks
  intro x hx
  rcases List.mem_append.mp hx with h3 | hImg
  swap
  · exact scanGen_inv _ _ (fun i n e h => imageStep_inv s i n e h) _ _ x hImg
  rcases List.mem_append.mp h3 with h4 | hIMath
  swap
  · exact scanGen_inv _ _ (fun i n e h => inlineMathStep_inv s i n e h) _ _ x hIMath
  rcases List.mem_append.mp h4 with h5 | hMBlock
  swap
  · exact scanGen_inv _ _ (fun i n e h => mathBlockStep_inv s i n e h) _ _ x hMBlock
  rcases List.mem_append.mp h5 with h6 | hFM
  swap
  · exact findFrontmatter_inv s x hFM
  rcases List.mem_append.mp h6 with h7 | hIC
  swap
  · exact scanGen_inv _ _ (fun i n e h => inlineCodeStep_inv s i n e h) _ _ x hIC
  rcases List.mem_append.mp h7 with hFen | hInd
  · exact scanGen_inv _ _ (fun i n e h => fencedStep_inv s i n e h) _ _ x hFen
  · exact scanGen_inv _ _ (fun i n e h => indentedStep_inv s i n e h) _ _ x hInd

theorem mem_sortByStart (l : List TextExclusion) (e : TextExclusion) :
    e ∈ sortByStart l ↔ e ∈ l :=
  (List.perm_insertionSort _ l).mem_iff

/-! Merged exclusions: bounds are preserved and the output is a strictly
separated chain. -/

theorem mergeGo_inv (len : Nat) :
    ∀ (l : List TextExclusion) (current : TextExclusion),
      exclInv len current → (∀ e ∈ l, exclInv len e) →
      ∀ e ∈ mergeGo current l, exclInv len e := by
  intro l
  induction l with
  | nil =>
    intro current hc _ e he
    rcases List.mem_singleton.mp he with rfl
    exact hc
  | cons next rest ih =>
    intro current hc hl e he
    unfold mergeGo at he
    split at he
    · refine ih _ ?_ (fun x hx => hl x (List.mem_cons_of_mem next hx)) e he
      have hn := hl next (List.mem_cons_self next rest)
      exact ⟨le_trans hc.1 (le_max_left _ _), max_le hc.2 hn.2⟩
    · rcases List.mem_cons.mp he with rfl | h2
      · exact hc
      · exact ih next (hl next (List.mem_cons_self next rest))
          (fun x hx => hl x (List.mem_cons_of_mem next hx)) e h2

theorem mergeGo_head :
    ∀ (l : List TextExclusion) (current : TextExclusion),
      ∃ c' t, mergeGo current l = c' :: t ∧ c'.start = current.start := by
  intro l
  induction l with
  | nil => intro current; exact ⟨current, [], rfl, rfl⟩
  | cons next rest ih =>
    intro current
    unfold mergeGo
    split
    · obtain ⟨c', t, heq, hstart⟩ := ih
        ⟨current.start, max current.«end» next.«end», current.type,
         current.originalText ++ next.originalText⟩
      exact ⟨c', t, heq, hstart⟩
    · exact ⟨current, mergeGo next rest, rfl, rfl⟩

theorem mergeGo_chain :
    ∀ (l : List TextExclusion) (current : TextExclusion),
      List.Chain' (fun a b => a.«end» < b.start) (mergeGo current l) := by
  intro l
  induction l with
  | nil => intro current; simp [mergeGo]
  | cons next rest ih =>
    intro current
    unfold mergeGo
    split
    · exact ih _
    · next hgt =>
      obtain ⟨c', t, heq, hstart⟩ := mergeGo_head rest next
      rw [heq]
      refine List.chain'_cons.mpr ⟨?_, heq ▸ ih next⟩
      rw [hstart]
      omega

theorem mergedExclusions_inv (md : List Char) :
    ∀ e ∈ mergeOverlappingExclusions (sortByStart (findAllExclusions md)),
      exclInv md.length e := by
  intro e he
  rcases hl : sortByStart (findAllExclusions md) with _ | ⟨e0, rest⟩
  · rw [hl] at he; simp [mergeOverlappingExclusions] at he
  · rw [hl] at he
    have hall : ∀ x ∈ e0 :: rest, exclInv md.length x := by
      intro x hx
      exact findAllExclusions_inv md x ((mem_sortByStart _ x).mp (hl ▸ hx))
    exact mergeGo_inv md.length rest e0 (hall e0 (List.mem_cons_self _ _))
      (fun x hx => hall x (List.mem_cons_of_mem e0 hx)) e he

theorem mergedExclusions_chain (md : List Char) :
    List.Chain' (fun a b => a.«end» < b.start)
      (mergeOverlappingExclusions (sortByStart (findAllExclusions md))) := by
  rcases hl : sortByStart (findAllExclusions md) with _ | ⟨e0, rest⟩
  · simp [mergeOverlappingExclusions]
  · exact mergeGo_chain rest e0

/-! The segments tile the interval `[0, length)`. -/

/-- `segsCoverFrom len pos segs`: the segments' `(originalPosition,
originalLength)` pairs tile `[pos, len)` contiguously and in order. -/
def segsCoverFrom (len : Nat) : Nat → List TextSegment → Bool
  | pos, [] => pos == len
  | pos, seg :: rest =>
    (seg.originalPosition == pos) && segsCoverFrom len (pos + seg.originalLength) rest

theorem createSegmentsGo_covers (text : List Char) :
    ∀ (l : List TextExclusion) (pos : Nat), pos ≤ text.length →
      (∀ e ∈ l, exclInv text.length e) →
      List.Chain' (fun a b => a.«end» < b.start) l →
      (∀ e, l.head? = some e → pos ≤ e.start) →
      segsCoverFrom text.length pos (createSegmentsGo text pos l) = true := by
  intro l
  induction l with
  | nil =>
    intro pos hpos _ _ _
    unfold createSegmentsGo
    split
    · simp only [segsCoverFrom]
      have h1 : pos + (text.length - pos) = text.length := by omega
      simp [h1]
    · simp only [segsCoverFrom]
      have : pos = text.length := by omega
      simp [this]
  | cons e rest ih =>
    intro pos hpos hinv hchain hhead
    obtain ⟨hie1, hie2⟩ := hinv e (List.mem_cons_self e rest)
    have hpe : pos ≤ e.start := hhead e rfl
    have hrest_inv : ∀ x ∈ rest, exclInv text.length x :=
      fun x hx => hinv x (List.mem_cons_of_mem e hx)
    have hrest_chain : List.Chain' (fun a b => a.«end» < b.start) rest := hchain.tail
    have hrest_head : ∀ x, rest.head? = some x → e.«end» ≤ x.start := by
      intro x hx
      cases rest with
      | nil => simp at hx
      | cons y t =>
        simp only [List.head?_cons, Option.some.injEq] at hx
        subst hx
        have := List.chain'_cons.mp hchain
        omega
    have hrec := ih e.«end» hie2 hrest_inv hrest_chain hrest_head
    unfold createSegmentsGo
    by_cases hlt : pos < e.start
    · rw [if_pos hlt]
      simp only [List.cons_append, List.nil_append, segsCoverFrom]
      have h1 : pos + (e.start - pos) = e.start := by omega
      have h2 : e.start + (e.«end» - e.start) = e.«end» := by omega
      simp [h1, h2, hrec]
    · rw [if_neg hlt]
      have hpe2 : pos = e.start := by omega
      simp only [List.nil_append, segsCoverFrom]
      have h2 : e.start + (e.«end» - e.start) = e.«end» := by omega
      simp [hpe2, h2, hrec]

theorem segsCoverFrom_sum (len : Nat) :
    ∀ (segs : List TextSegment) (pos : Nat),
      segsCoverFrom len pos segs = true →
      pos + (segs.map (·.originalLength)).sum = len := by
  intro segs
  induction segs with
  | nil =>
    intro pos h
    simp only [segsCoverFrom, beq_iff_eq] at h
    simp [h]
  | cons seg rest ih =>
    intro pos h
    simp only [segsCoverFrom, Bool.and_eq_true, beq_iff_eq] at h
    have := ih (pos + seg.originalLength) h.2
    simp only [List.map_cons, List.sum_cons]
    omega

theorem sliceL_append (l : List Char) (i j k : Nat) (h1 : i ≤ j) (h2 : j ≤ k) :
    sliceL l i j ++ sliceL l j k = sliceL l i k := by
  unfold sliceL
  have hd : (l.drop i).drop (j - i) = l.drop j := by
    rw [List.drop_drop]
    congr 1
    omega
  rw [← hd, ← List.take_add]
  congr 1
  omega

theorem createSegmentsGo_join (text : List Char) :
    ∀ (l : List TextExclusion) (pos : Nat), pos ≤ text.length →
      (∀ e ∈ l, exclInv text.length e) →
      List.Chain' (fun a b => a.«end» < b.start) l →
      (∀ e, l.head? = some e → pos ≤ e.start) →
      (∀ e ∈ l, e.originalText = sliceL text e.start e.«end») →
      ((createSegmentsGo text pos l).map (·.text)).flatten
        = sliceL text pos text.length := by
  intro l
  induction l with
  | nil =>
    intro pos hpos _ _ _ _
    unfold createSegmentsGo
    split
    · simp
    · have : pos = text.length := by omega
      subst this
      simp [sliceL]
  | cons e rest ih =>
    intro pos hpos hinv hchain hhead horig
    obtain ⟨hie1, hie2⟩ := hinv e (List.mem_cons_self e rest)
    have hpe : pos ≤ e.start := hhead e rfl
    have hrest_head : ∀ x, rest.head? = some x → e.«end» ≤ x.start := by
      intro x hx
      cases rest with
      | nil => simp at hx
      | cons y t =>
        simp only [List.head?_cons, Option.some.injEq] at hx
        subst hx
        have := List.chain'_cons.mp hchain
        omega
    have hrec := ih e.«end» hie2 (fun x hx => hinv x (List.mem_cons_of_mem e hx))
      hchain.tail hrest_head (fun x hx => horig x (List.mem_cons_of_mem e hx))
    have heo : e.originalText = sliceL text e.start e.«end» :=
      horig e (List.mem_cons_self e rest)
    unfold createSegmentsGo
    by_cases hlt : pos < e.start
    · rw [if_pos hlt]
      simp only [List.cons_append, List.nil_append, List.map_cons, List.flatten_cons]
      rw [hrec, heo, ← List.append_assoc,
        sliceL_append text pos e.start e.«end» (by omega) hie1,
        sliceL_append text pos e.«end» text.length (by omega) hie2]
    · rw [if_neg hlt]
      simp only [List.nil_append, List.map_cons, List.flatten_cons]
      have hpe2 : pos = e.start := by omega
      rw [hrec, heo, hpe2,
        sliceL_append text e.start e.«end» text.length hie1 hie2]

/-- C1 (amended): for every document, the segments produced by
`extractTextForGrammarCheck` tile `[0, documentLength)` contiguously, in
document order, with no gaps or overlaps; the sum of their `originalLength`
fields equals the document length; and whenever every merged exclusion's
`originalText` equals its document slice (in particular whenever no strictly
overlapping exclusions were merged), concatenating the segments' `text`
fields reconstructs the document exactly. -/
theorem extractText_segments_partition (md : List Char) :
    segsCoverFrom md.length 0 (extractTextForGrammarCheck md).segments = true ∧
    (((extractTextForGrammarCheck md).segments.map (·.originalLength)).sum
      = md.length) ∧
    ((∀ e ∈ (extractTextForGrammarCheck md).exclusions,
        e.originalText = sliceL md e.start e.«end») →
      ((extractTextForGrammarCheck md).segments.map (·.text)).flatten = md) := by
  have hinv := mergedExclusions_inv md
  have hchain := mergedExclusions_chain md
  have hsegs : (extractTextForGrammarCheck md).segments
      = createSegmentsGo md 0
          (mergeOverlappingExclusions (sortByStart (findAllExclusions md))) := rfl
  have hexcl : (extractTextForGrammarCheck md).exclusions
      = mergeOverlappingExclusions (sortByStart (findAllExclusions md)) := rfl
  rw [hsegs, hexcl]
  have hcov := createSegmentsGo_covers md _ 0 (Nat.zero_le _) hinv hchain
    (fun _ _ => Nat.zero_le _)
  refine ⟨hcov, ?_, ?_⟩
  · have := segsCoverFrom_sum md.length _ 0 hcov
    omega
  · intro horig
    have := createSegmentsGo_join md _ 0 (Nat.zero_le _) hinv hchain
      (fun _ _ => Nat.zero_le _) horig
    rw [this]
    simp [sliceL]

theorem extractText_segments_partition_witness :
    ((extractTextForGrammarCheck "ab `c` d".toList).segments.map (·.text)).flatten
      = "ab `c` d".toList :=
  (extractText_segments_partition "ab `c` d".toList).2.2 (by decide)

/-- C1 counterexample: in `"`a $b` c$"` the inline-code span and the inline-math
span strictly overlap; merging concatenates both `originalText`s, so the
single merged excluded segment's `text` has length 12 over a 9-character
document and the `text`-field concatenation does not reconstruct the
document, even though the positions and lengths still tile it. -/
theorem extractText_reconstruction_counterexample :
    (((extractTextForGrammarCheck "`a $b` c$".toList).segments.map (·.text)).flatten
       ≠ "`a $b` c$".toList) ∧
    segsCoverFrom "`a $b` c$".toList.length 0
      (extractTextForGrammarCheck "`a $b` c$".toList).segments = true ∧
    (((extractTextForGrammarCheck "`a $b` c$".toList).segments.map
        (·.originalLength)).sum = "`a $b` c$".toList.length) := by
  refine ⟨by decide, by decide, by decide⟩

end GraziePlugin
